import Mathlib

/-!
A shallow embedding of the Scheme-like interpreter in `lab.py`:
tokenizer, recursive-descent parser, frame-chain environment model,
evaluator with its special forms, and the builtin procedure library.

Modelling conventions, applied throughout:
* Python ints are `Int`; Python floats are modelled as `Rat` (true division
  always produces a float in the source; no property proved here depends on
  binary64 rounding, only on which operations succeed or fail).
* Host (Python) exceptions that are not `SchemeError` subclasses are
  modelled by the `hostIndex`/`hostType`/`hostAttribute`/`hostZeroDivision`
  variants of `Err`, mirroring IndexError, TypeError, AttributeError and
  ZeroDivisionError at the places the source would raise them.
* Mutable frames are modelled by a store: a list of frame records indexed
  by allocation order; creating a `Frame` appends a record.  Parent links
  always point to previously allocated frames, so chain walks recurse on a
  decreasing index; the `hostUnmodelled` arms for out-of-range or forward
  parent links are unreachable from any store the interpreter builds.
* Python dict keys in frames are always strings in every reachable state
  (symbols); the source would also accept e.g. integer keys via
  `(define 3 5)`, which no symbol lookup can ever observe — those arms are
  marked `hostUnmodelled` rather than modelled.
* The recursive evaluator is given explicit fuel; `Err.fuel` is an artifact
  of the embedding (the source would recurse until the host stack overflows)
  and concrete theorems always supply sufficient fuel.
-/

namespace Lab

/-- Error taxonomy: the three `SchemeError` subclasses raised by the source,
plus host (Python) exceptions that escape the `SchemeError` hierarchy, plus
the two embedding artifacts (`hostUnmodelled`, `fuel`). -/
inductive Err where
  | schemeSyntax
  | schemeName
  | schemeEval
  | hostZeroDivision
  | hostType
  | hostIndex
  | hostAttribute
  | hostUnmodelled
  | fuel
deriving DecidableEq, Repr

/-- An error is a `SchemeError` exactly when it is one of the three
subclasses declared at the top of `lab.py`. -/
def Err.isSchemeError : Err → Bool
  | .schemeSyntax => true
  | .schemeName => true
  | .schemeEval => true
  | _ => false

/-- A Python number: an int, or a float (modelled as a rational). -/
inductive PyNum where
  | i : Int → PyNum
  | f : Rat → PyNum
deriving DecidableEq, Repr

namespace PyNum

/-- Numeric value of a Python number (bools are handled at `asNum`). -/
def toRat : PyNum → Rat
  | .i n => (n : Rat)
  | .f q => q

/-- Python `+`: int+int stays int, any float operand promotes to float. -/
def add : PyNum → PyNum → PyNum
  | .i a, .i b => .i (a + b)
  | a, b => .f (a.toRat + b.toRat)

/-- Python `-` (binary), with the same promotion rule as `add`. -/
def sub : PyNum → PyNum → PyNum
  | .i a, .i b => .i (a - b)
  | a, b => .f (a.toRat - b.toRat)

/-- Python unary `-`. -/
def neg : PyNum → PyNum
  | .i a => .i (-a)
  | .f q => .f (-q)

/-- Python `*`, with the same promotion rule as `add`. -/
def mul : PyNum → PyNum → PyNum
  | .i a, .i b => .i (a * b)
  | a, b => .f (a.toRat * b.toRat)

end PyNum

/-- An AST node as produced by `parse`: a number atom, a symbol string, or a
list of sub-nodes. -/
inductive Ast where
  | num (n : PyNum)
  | sym (s : String)
  | node (elems : List Ast)

/-- The native procedures installed in the `Builtin` frame (bound methods and
the two plain functions `sum` and the subtraction lambda). -/
inductive Prim where
  | plusP | minusP | timesP | divideP
  | gtP | ltP | geP | leP
  | equalP | notP
  | consP | carP | cdrP
  | listMk | islistP | appendP | lengthP | listRefP
  | mapP | filterP | reduceP | beginP
deriving DecidableEq, Repr

/-- A runtime value: number, boolean, the `Nill` sentinel, a pair, a
user-defined `Function` (closure: captured frame id, parameter node, body
node), or a native procedure. -/
inductive Value where
  | num (n : PyNum)
  | bool (b : Bool)
  | nil
  | pair (car cdr : Value)
  | closure (frameId : Nat) (paramaters : Ast) (code : Ast)
  | prim (p : Prim)

/-- Python truthiness (`bool(x)`), as used by `and`, `or`, `not` and
`filter`: numbers are truthy iff nonzero; everything else the evaluator can
produce (the `Nill` class object, pairs, functions, builtins) is truthy. -/
def truthy : Value → Bool
  | .num n => if n.toRat = 0 then false else true
  | .bool b => b
  | _ => true

/-- Python `x == True`, the exact test the source's `if` form performs:
true for the boolean `True` and for numbers equal to 1 (`1 == True` and
`1.0 == True` hold in Python); false for every other value, since `True`
compares unequal to pairs, `Nill` and functions. -/
def pyEqTrue : Value → Bool
  | .num n => if n.toRat = 1 then true else false
  | .bool b => b
  | _ => false

/-- Python `x == 0`, used by `list-ref`'s bare-pair branch. -/
def pyEqZero : Value → Bool
  | .num n => if n.toRat = 0 then true else false
  | .bool b => !b
  | _ => false

/-- Numeric view of a value for host arithmetic: Python `bool` is an `int`
subclass, so booleans participate in arithmetic as 0/1. -/
def asNum : Value → Option PyNum
  | .num n => some n
  | .bool b => some (.i (if b then 1 else 0))
  | _ => none

/-- Python `==` between two values, where decidable without object identity:
numbers and booleans compare numerically, `Nill` equals only `Nill` (both
references denote the same class object), different-type comparisons are
`False`, and native procedures (bound methods) compare by the method they
wrap.  Two distinct `Pair` or `Function` objects compare by identity in the
source, which a pure value cannot decide: those cases are `none`. -/
def pyEqOpt : Value → Value → Option Bool
  | .pair _ _, .pair _ _ => none
  | .closure _ _ _, .closure _ _ _ => none
  | .prim p, .prim q => some (decide (p = q))
  | .nil, .nil => some true
  | a, b =>
    match asNum a, asNum b with
    | some x, some y => some (decide (x.toRat = y.toRat))
    | _, _ => some false

/-- A frame's binding dict: an insertion-ordered association list, matching
Python dict observational behaviour for the operations the source uses. -/
abbrev Bindings := List (String × Value)

/-- Python `d[k]` lookup (as `Option`). -/
def dictGet : Bindings → String → Option Value
  | [], _ => none
  | (k', v) :: rest, k => if k' = k then some v else dictGet rest k

/-- Python `k in d`. -/
def dictHas (b : Bindings) (k : String) : Bool :=
  (dictGet b k).isSome

/-- Python `d[k] = v`: overwrite in place, or append a new entry. -/
def dictSet : Bindings → String → Value → Bindings
  | [], k, v => [(k, v)]
  | (k', v') :: rest, k, v =>
    if k' = k then (k, v) :: rest else (k', v') :: dictSet rest k v

/-- Python `d.pop(k)`: the removed value and the remaining dict. -/
def dictPop : Bindings → String → Option (Value × Bindings)
  | [], _ => none
  | (k', v) :: rest, k =>
    if k' = k then some (v, rest)
    else match dictPop rest k with
      | some (w, rest') => some (w, (k', v) :: rest')
      | none => none

/-- One `Frame` object: its parent link (`none` exactly for the `Builtin`
root frame, whose failed lookups raise `SchemeNameError`) and its binding
dict. -/
structure FrameData where
  parent : Option Nat
  bindings : Bindings

/-- The frame heap: frames indexed by allocation order. -/
abbrev Store := List FrameData

/-- The chain walk of `Frame.__getitem__` / `Builtin.__getitem__`.  The
structural `steps` counter is an embedding artifact: parent links always
point to earlier frames (enforced by the guard), so the walk from frame `i`
takes at most `i + 1` steps and the zero arm is unreachable from the
wrapper. -/
def lookupAux (st : Store) : Nat → Nat → String → Except Err Value
  | 0, _, _ => .error .hostUnmodelled
  | steps + 1, i, n =>
    match st.get? i with
    | none => .error .hostUnmodelled
    | some fr =>
      match dictGet fr.bindings n with
      | some v => .ok v
      | none =>
        match fr.parent with
        | none => .error .schemeName
        | some p =>
          if p < i then lookupAux st steps p n else .error .hostUnmodelled

/-- `Frame.__getitem__` / `Builtin.__getitem__`: look `n` up in frame `i`,
then in its parent chain; the parentless root raises `SchemeNameError`. -/
def lookupVar (st : Store) (i : Nat) (n : String) : Except Err Value :=
  lookupAux st (i + 1) i n

/-- `Frame.__setitem__`: bind `var` in frame `i` only. -/
def bindVar (st : Store) (i : Nat) (var : String) (val : Value) : Store :=
  match st.get? i with
  | none => st
  | some fr => st.set i { fr with bindings := dictSet fr.bindings var val }

/-- The chain walk of `Frame.set_exisits`; the `steps` counter is the same
embedding artifact as in `lookupAux`. -/
def setExisitsAux (st : Store) : Nat → Nat → String → Value → Except Err Store
  | 0, _, _, _ => .error .hostUnmodelled
  | steps + 1, i, var, val =>
    match st.get? i with
    | none => .error .hostUnmodelled
    | some fr =>
      if dictHas fr.bindings var then
        .ok (st.set i { fr with bindings := dictSet fr.bindings var val })
      else
        match fr.parent with
        | none => .error .hostAttribute
        | some p =>
          if p < i then setExisitsAux st steps p var val
          else .error .hostUnmodelled

/-- `Frame.set_exisits`: overwrite `var` in the nearest frame of the chain
that already binds it.  At the parentless `Builtin` frame a missing binding
touches the nonexistent `parent_frame` attribute (host AttributeError). -/
def set_exisits (st : Store) (i : Nat) (var : String) (val : Value) :
    Except Err Store :=
  setExisitsAux st (i + 1) i var val

/-- `Frame.delete`: pop `var` from frame `i` itself, raising
`SchemeNameError` when frame `i` does not bind it. -/
def delete (st : Store) (i : Nat) (var : String) : (Except Err Value) × Store :=
  match st.get? i with
  | none => (.error .hostUnmodelled, st)
  | some fr =>
    match dictPop fr.bindings var with
    | none => (.error .schemeName, st)
    | some (v, b) => (.ok v, st.set i { fr with bindings := b })

/-! ## Builtin library (the pure procedures) -/

/-- Host `sum(args)` starting from the int 0, as bound to `+`:
a non-numeric operand raises a host TypeError. -/
def sumNum : PyNum → List Value → Except Err PyNum
  | acc, [] => .ok acc
  | acc, v :: rest =>
    match asNum v with
    | some n => sumNum (acc.add n) rest
    | none => .error .hostType

/-- The `+` builtin: Python `sum`. -/
def plus (args : List Value) : Except Err Value :=
  (Value.num ·) <$> sumNum (.i 0) args

/-- The `-` builtin: negate a single argument, else subtract the sum of the
rest from the first (`args[0] - sum(args[1:])`; the `sum` runs first). -/
def minus (args : List Value) : Except Err Value :=
  match args with
  | [] => .error .hostIndex
  | [a] =>
    match asNum a with
    | some n => .ok (.num n.neg)
    | none => .error .hostType
  | a :: rest => do
    let s ← sumNum (.i 0) rest
    match asNum a with
    | some n => .ok (.num (n.sub s))
    | none => .error .hostType

/-- The loop of `Builtin.product`: `answer *= m` for each later operand. -/
def productLoop : PyNum → List Value → Except Err PyNum
  | acc, [] => .ok acc
  | acc, v :: rest =>
    match asNum v with
    | some m => productLoop (acc.mul m) rest
    | none => .error .hostType

/-- `Builtin.product` (`*`): seed with the first argument and fold `*=`
left to right.  A single argument is returned unchanged (the loop body
never runs), and an empty argument list indexes out of range. -/
def product (args : List Value) : Except Err Value :=
  match args with
  | [] => .error .hostIndex
  | [a] => .ok a
  | a :: rest =>
    match asNum a with
    | some n => (Value.num ·) <$> productLoop n rest
    | none => .error .hostType

/-- The loop of `Builtin.division`: `answer /= d` for each later operand:
host TypeError on a non-numeric operand, host ZeroDivisionError on a zero
divisor, and a float (true-division) result otherwise. -/
def divisionLoop : PyNum → List Value → Except Err PyNum
  | acc, [] => .ok acc
  | acc, v :: rest =>
    match asNum v with
    | some d =>
      if d.toRat = 0 then .error .hostZeroDivision
      else divisionLoop (.f (acc.toRat / d.toRat)) rest
    | none => .error .hostType

/-- `Builtin.division` (`/`): seed with the first argument and fold `/=`
left to right. -/
def division (args : List Value) : Except Err Value :=
  match args with
  | [] => .error .hostIndex
  | [a] => .ok a
  | a :: rest =>
    match asNum a with
    | some n => (Value.num ·) <$> divisionLoop n rest
    | none => .error .hostType

/-- The pairwise comparison loops of `Builtin.greater`/`lesser`/`greatereq`/
`lessereq`: walk adjacent operands, returning `False` as soon as `keep` fails
and `True` after the walk; comparing a non-number raises a host TypeError. -/
def chainRel (keep : Rat → Rat → Bool) : List Value → Except Err Value
  | [] => .ok (.bool true)
  | [_] => .ok (.bool true)
  | a :: b :: rest =>
    match asNum a, asNum b with
    | some x, some y =>
      if keep x.toRat y.toRat then chainRel keep (b :: rest)
      else .ok (.bool false)
    | _, _ => .error .hostType

/-- `Builtin.greater` (`>`). -/
def greater (args : List Value) : Except Err Value :=
  chainRel (fun x y => decide (x > y)) args

/-- `Builtin.lesser` (`<`). -/
def lesser (args : List Value) : Except Err Value :=
  chainRel (fun x y => decide (x < y)) args

/-- `Builtin.greatereq` (`>=`). -/
def greatereq (args : List Value) : Except Err Value :=
  chainRel (fun x y => decide (x ≥ y)) args

/-- `Builtin.lessereq` (`<=`). -/
def lessereq (args : List Value) : Except Err Value :=
  chainRel (fun x y => decide (x ≤ y)) args

/-- The loop of `Builtin.equal`: compare every operand against the first.
The source also compares the first operand against itself, which always
succeeds (same object), so the loop here starts at the second. -/
def equalLoop (e1 : Value) : List Value → Except Err Value
  | [] => .ok (.bool true)
  | v :: rest =>
    match pyEqOpt e1 v with
    | some true => equalLoop e1 rest
    | some false => .ok (.bool false)
    | none => .error .hostUnmodelled

/-- `Builtin.equal` (`equal?`). -/
def equal (args : List Value) : Except Err Value :=
  match args with
  | [] => .error .hostIndex
  | e1 :: rest => equalLoop e1 rest

/-- `Builtin.not_it` (`not`): exactly one argument, logical negation of its
truthiness. -/
def not_it (args : List Value) : Except Err Value :=
  match args with
  | [v] => .ok (.bool (!truthy v))
  | _ => .error .schemeEval

/-- `Builtin.cons`. -/
def cons (args : List Value) : Except Err Value :=
  match args with
  | [a, b] => .ok (.pair a b)
  | _ => .error .schemeEval

/-- `Builtin.car`: exactly one argument, which must be a `Pair`. -/
def car (args : List Value) : Except Err Value :=
  match args with
  | [.pair a _] => .ok a
  | _ => .error .schemeEval

/-- `Builtin.cdr`: exactly one argument, which must be a `Pair`. -/
def cdr (args : List Value) : Except Err Value :=
  match args with
  | [.pair _ d] => .ok d
  | _ => .error .schemeEval

/-- `Builtin.list`: right fold of `Pair` over the arguments, ending in
`Nill`. -/
def list (args : List Value) : Value :=
  args.foldr .pair .nil

/-- The recursion of `Builtin.islist` on a single candidate value: a `Pair`
chain is a list iff its `cdr` chain reaches `Nill` through `Pair`s.  The
entry value is the element of the singleton argument list. -/
def islistV : Value → Bool
  | .nil => true
  | .pair _ d =>
    match d with
    | .pair a d' => islistV (.pair a d')
    | .nil => true
    | _ => false
  | _ => false

/-- `Builtin.islist` (`list?`): `True` when the first argument is `Nill`
(checked before the arity test), `False` for a non-singleton argument list
or a non-`Pair`, else the chain check. -/
def islist (args : List Value) : Except Err Bool :=
  match args with
  | [] => .error .hostIndex
  | .nil :: _ => .ok true
  | [v] => .ok (islistV v)
  | _ => .ok false

/-- The counting loop of `Builtin.list_length`: `count` starts at 1 and the
walk steps through `cdr` until it reaches `Nill`; `cdr` of a non-`Pair`
raises.  (Entered only after `islist` has accepted the argument.) -/
def lengthLoop : Value → Except Err Int
  | .pair _ d =>
    match d with
    | .nil => .ok 1
    | .pair a d' => (1 + ·) <$> lengthLoop (.pair a d')
    | _ => .error .schemeEval
  | _ => .error .schemeEval

/-- `Builtin.list_length` (`length`): reject non-lists via `islist` (note the
whole argument list is passed, so a wrong arity is also rejected there),
return 0 for `Nill`, else count pairs. -/
def list_length (args : List Value) : Except Err Int := do
  let b ← islist args
  if !b then .error .schemeEval
  else
    match args with
    | .nil :: _ => .ok 0
    | v :: _ => lengthLoop v
    | [] => .error .hostIndex

/-- The walk of `Builtin.list_indexing`: `while index != 0` step to the
`cdr` (raising on a non-`Pair`, in particular when the walk runs off the end
of the chain because the index never hits 0) and then take the `car`. -/
def walkIndex : Value → Rat → Except Err Value
  | ll, idx =>
    if idx = 0 then car [ll]
    else
      match ll with
      | .pair _ d => walkIndex d (idx - 1)
      | _ => .error .schemeEval

/-- `Builtin.list_indexing` (`list-ref`): if the first argument is a proper
list, walk when the index is below the length, otherwise fall through to the
error; a bare `Pair` admits only index 0. -/
def list_indexing (args : List Value) : Except Err Value :=
  match args with
  | [] => .error .hostIndex
  | [_] => .error .hostIndex
  | lst :: idx :: _ => do
    let b ← islist [lst]
    if b then do
      let len ← list_length [lst]
      match asNum idx with
      | some n =>
        if n.toRat < (len : Rat) then walkIndex lst n.toRat
        else .error .schemeEval
      | none => .error .hostType
    else
      match lst, pyEqZero idx with
      | .pair _ _, true => car [lst]
      | _, _ => .error .schemeEval

/-- The recursion of `Builtin.copy` on the single argument: a fresh copy of
a `Nill`-terminated chain; reading `.car` of a non-`Pair` non-`Nill` value
raises a host AttributeError. -/
def copyV : Value → Except Err Value
  | .nil => .ok .nil
  | .pair a d => (Value.pair a ·) <$> copyV d
  | _ => .error .hostAttribute

/-- `Builtin.copy`. -/
def copy (args : List Value) : Except Err Value :=
  match args with
  | [] => .error .hostIndex
  | v :: _ => copyV v

/-- The in-place extension step of `Builtin.append`: the source walks
`end_of_list` with `cdr` to the final `Pair` of the chain and assigns its
`cdr`.  Since `end_of_list` is always either `Nill` or a suffix of
`new_list` sharing that final `Pair` (the only mutation is at that shared
final `Pair`), the mutation is modelled by rebuilding the chain with its
terminating `Nill` replaced; the `Nill` case is handled by the caller's
`endNil` flag, and walking a non-`Pair` raises `cdr`'s evaluation error. -/
def extendEnd : Value → Value → Except Err Value
  | .pair a d, x =>
    match d with
    | .nil => .ok (.pair a x)
    | _ => (Value.pair a ·) <$> extendEnd d x
  | _, _ => .error .schemeEval

/-- The loop of `Builtin.append` over the remaining arguments.  `endNil`
records whether the `end_of_list` pointer is still the `Nill` it was
initialised to when the first argument copied to `Nill` — the source never
re-points it when `new_list` is replaced, so a later extension walks
`cdr([Nill])` and raises. -/
def appendLoop : Value → Bool → List Value → Except Err Value
  | nl, _, [] => .ok nl
  | .nil, endNil, a :: rest => do
    let nl' ← copy [a]
    appendLoop nl' endNil rest
  | nl, endNil, a :: rest =>
    match a with
    | .nil => appendLoop nl endNil rest
    | _ => do
      let b ← islist [a]
      if !b then .error .schemeEval
      else if endNil then .error .schemeEval
      else do
        let ca ← copy [a]
        let nl' ← extendEnd nl ca
        appendLoop nl' endNil rest

/-- `Builtin.append`: `Nill` for no arguments; the first argument must pass
`islist`; then fold the remaining arguments through `appendLoop`. -/
def append (args : List Value) : Except Err Value :=
  match args with
  | [] => .ok .nil
  | a0 :: rest => do
    let b ← islist [a0]
    if !b then .error .schemeEval
    else do
      let nl ← copy [a0]
      appendLoop nl (match nl with | .nil => true | _ => false) rest

/-- `Builtin.beign` (`begin`): the last already-evaluated argument. -/
def beign (args : List Value) : Except Err Value :=
  match args.getLast? with
  | some v => .ok v
  | none => .error .hostIndex

/-! ## Tokenizer -/

/-- The token-separator character set of `tokenize` (the characters of the
Python literal `" (  ) \n"`). -/
def sepChar (c : Char) : Bool :=
  c = ' ' || c = '(' || c = ')' || c = '\n'

/-- The character loop of `tokenize`: comments run to (not including) the
next newline, parentheses are single-character tokens, newlines and spaces
separate, and any other run of non-separator characters is one atom.
Each step consumes at least the head character, so the structural `steps`
counter (an embedding artifact) never runs out when seeded with the input
length plus one. -/
def tokenizeAux : Nat → List Char → List String
  | 0, _ => []
  | _ + 1, [] => []
  | steps + 1, c :: rest =>
    if c = ';' then tokenizeAux steps (rest.dropWhile (fun d => !(d = '\n')))
    else if c = '(' then "(" :: tokenizeAux steps rest
    else if c = ')' then ")" :: tokenizeAux steps rest
    else if c = '\n' then tokenizeAux steps rest
    else if c = ' ' then tokenizeAux steps rest
    else
      String.mk (c :: rest.takeWhile (fun d => !sepChar d)) ::
        tokenizeAux steps (rest.dropWhile (fun d => !sepChar d))

/-- `tokenize`. -/
def tokenize (source : String) : List String :=
  tokenizeAux (source.toList.length + 1) source.toList

/-! ## Parser -/

/-- Modelled from the host: `int(value)` on a token — an optional sign
followed by at least one digit.  (The host also accepts surrounding
whitespace and digit-group underscores, which the tokenizer never produces
inside a token of interest here.) -/
def intLit? (s : String) : Option Int :=
  let digits : List Char → Option Int := fun cs =>
    if cs ≠ [] ∧ cs.all (·.isDigit) then
      some (cs.foldl (fun acc c => 10 * acc + (c.toNat - '0'.toNat : Int)) 0)
    else none
  match s.toList with
  | '-' :: cs => (- ·) <$> digits cs
  | '+' :: cs => digits cs
  | cs => digits cs

/-- Modelled from the host: `float(value)` on a token that is not an int —
an optional sign and digits with one decimal point (digits on at least one
side).  Exponent and special forms are not modelled; no claim depends on
them. -/
def floatLit? (s : String) : Option Rat :=
  let core : List Char → Option Rat := fun cs =>
    match cs.splitOn '.' with
    | [ip, fp] =>
      if (ip ≠ [] ∨ fp ≠ []) ∧ ip.all (·.isDigit) ∧ fp.all (·.isDigit) then
        let ipn : Int := ip.foldl (fun acc c => 10 * acc + (c.toNat - '0'.toNat : Int)) 0
        let fpn : Int := fp.foldl (fun acc c => 10 * acc + (c.toNat - '0'.toNat : Int)) 0
        some ((ipn : Rat) + (fpn : Rat) / ((10 : Rat) ^ fp.length))
      else none
    | _ => none
  match s.toList with
  | '-' :: cs => (- ·) <$> core cs
  | '+' :: cs => core cs
  | cs => core cs

/-- `number_or_symbol`: try int, then float, else keep the symbol string. -/
def number_or_symbol (s : String) : Ast :=
  match intLit? s with
  | some n => .num (.i n)
  | none =>
    match floatLit? s with
    | some q => .num (.f q)
    | none => .sym s

mutual
/-- `parse_expression`, with the cursor into the token list modelled by the
suffix of tokens not yet consumed (the source's `tokens[index]` is the head
of the suffix, `index + 1` its tail, and an IndexError an empty suffix).
Returns the parsed node and the remaining suffix. -/
def parse_expression : Nat → List String → Except Err (Ast × List String)
  | 0, _ => .error .fuel
  | _ + 1, [] => .error .hostIndex
  | fuel + 1, t :: rest =>
    if t = ")" then .error .schemeSyntax
    else if t = "(" then parseSubexpr fuel rest []
    else .ok (number_or_symbol t, rest)

/-- The subexpression loop of `parse_expression`: stop at `")"`; raise a
syntax error when the current token is the last one (`len(tokens) - 1 ==
index`) or when the tokens run out (the caught IndexError); otherwise parse
one subexpression and continue. -/
def parseSubexpr : Nat → List String → List Ast → Except Err (Ast × List String)
  | 0, _, _ => .error .fuel
  | _ + 1, [], _ => .error .schemeSyntax
  | fuel + 1, t :: rest, acc =>
    if t = ")" then .ok (.node acc.reverse, rest)
    else
      match rest with
      | [] => .error .schemeSyntax
      | _ :: _ =>
        match parse_expression fuel (t :: rest) with
        | .ok (a, rest') => parseSubexpr fuel rest' (a :: acc)
        | .error e => .error e
end

/-- `parse`: parse one expression from position 0 and require every token to
have been consumed.  The fuel is an embedding artifact; `2 * length + 3`
always suffices (proved below). -/
def parse (tokens : List String) : Except Err Ast :=
  match parse_expression (2 * tokens.length + 3) tokens with
  | .ok (a, []) => .ok a
  | .ok (_, _ :: _) => .error .schemeSyntax
  | .error e => .error e

/-! ## Evaluator -/

/-- The parameter-binding loop of `Function.__call__`:
`zip(arg, self.paramaters)` binds each parameter name in the call frame.
An integer parameter would become an integer dict key (unobservable by any
symbol lookup, not modelled); a list parameter is unhashable. -/
def bindParams : List Ast → List Value → Store → Nat → Except Err Store
  | [], _, st, _ => .ok st
  | _ :: _, [], st, _ => .ok st
  | .sym s :: ps, v :: vs, st, fid => bindParams ps vs (bindVar st fid s v) fid
  | .num _ :: _, _ :: _, _, _ => .error .hostUnmodelled
  | .node _ :: _, _ :: _, _, _ => .error .hostType

mutual

/-- `evaluate`: dispatch on the node, handling the eight special forms by
head symbol and falling through to procedure application.  The store is
returned alongside the result so that mutations made before an error
propagates remain observable. -/
def evaluate (fuel : Nat) (t : Ast) (f : Nat) (st : Store) :
    (Except Err Value) × Store :=
  match fuel with
  | 0 => (.error .fuel, st)
  | fuel + 1 =>
    match t with
    | .num n => (.ok (.num n), st)
    | .sym s => (lookupVar st f s, st)
    | .node [] => (.error .schemeEval, st)
    | .node (.sym "define" :: rest) =>
      match rest with
      | [] => (.error .hostIndex, st)
      | [_] => (.error .hostIndex, st)
      | name :: expr :: _ =>
        match name with
        | .node inner =>
          match inner with
          | [] => (.error .hostIndex, st)
          | n0 :: ps =>
            evaluate fuel
              (.node [.sym "define", n0,
                .node [.sym "lambda", .node ps, expr]]) f st
        | .sym s =>
          match evaluate fuel expr f st with
          | (.ok v, st') => (.ok v, bindVar st' f s v)
          | r => r
        | .num _ =>
          match evaluate fuel expr f st with
          | (.ok _, st') => (.error .hostUnmodelled, st')
          | r => r
    | .node (.sym "lambda" :: rest) =>
      match rest with
      | p :: b :: _ => (.ok (.closure f p b), st)
      | _ => (.error .hostIndex, st)
    | .node (.sym "if" :: rest) =>
      match rest with
      | [] => (.error .hostIndex, st)
      | c :: restIf =>
        match evaluate fuel c f st with
        | (.ok v, st') =>
          if pyEqTrue v then
            match restIf with
            | th :: _ => evaluate fuel th f st'
            | [] => (.error .hostIndex, st')
          else
            match restIf with
            | _ :: el :: _ => evaluate fuel el f st'
            | _ => (.error .hostIndex, st')
        | r => r
    | .node (.sym "and" :: rest) => evalAnd fuel rest f st
    | .node (.sym "or" :: rest) => evalOr fuel rest f st
    | .node (.sym "del" :: rest) =>
      match rest with
      | [] => (.error .hostIndex, st)
      | n :: _ =>
        match evaluate fuel n f st with
        | (.ok _, st') =>
          match n with
          | .sym s => delete st' f s
          | .num _ => (.error .schemeName, st')
          | .node _ => (.error .hostType, st')
        | r => r
    | .node (.sym "let" :: rest) =>
      let baby := st.length
      let st₀ := st ++ [⟨some f, []⟩]
      match rest with
      | [] => (.error .hostIndex, st₀)
      | bs :: restLet =>
        match bs with
        | .node bsList =>
          match evalLetBinds fuel bsList baby st₀ with
          | (.ok _, st₁) =>
            match restLet with
            | body :: _ => evaluate fuel body baby st₁
            | [] => (.error .hostIndex, st₁)
          | (.error e, st₁) => (.error e, st₁)
        | .num _ => (.error .hostType, st₀)
        | .sym _ => (.error .hostUnmodelled, st₀)
    | .node (.sym "set!" :: rest) =>
      match rest with
      | [] => (.error .hostIndex, st)
      | n :: restSet =>
        match n with
        | .sym s =>
          match lookupVar st f s with
          | .error e => (.error e, st)
          | .ok _ =>
            match restSet with
            | [] => (.error .hostIndex, st)
            | e :: _ =>
              match evaluate fuel e f st with
              | (.ok v, st') =>
                match set_exisits st' f s v with
                | .ok st'' => (.ok v, st'')
                | .error er => (.error er, st')
              | r => r
        | .num _ => (.error .schemeName, st)
        | .node _ => (.error .hostType, st)
    | .node (h :: rest) =>
      match evalArgs fuel (h :: rest) f st with
      | (.ok vs, st') =>
        match vs with
        | fn :: args => applyVal fuel fn args st'
        | [] => (.error .hostUnmodelled, st')
      | (.error e, st') => (.error e, st')
termination_by structural fuel

/-- The element loop of procedure application: evaluate every element of the
compound form in order. -/
def evalArgs (fuel : Nat) (ts : List Ast) (f : Nat) (st : Store) :
    (Except Err (List Value)) × Store :=
  match fuel with
  | 0 => (.error .fuel, st)
  | fuel + 1 =>
    match ts with
    | [] => (.ok [], st)
    | t :: rest =>
      match evaluate fuel t f st with
      | (.ok v, st') =>
        match evalArgs fuel rest f st' with
        | (.ok vs, st'') => (.ok (v :: vs), st'')
        | (.error e, st'') => (.error e, st'')
      | (.error e, st') => (.error e, st')
termination_by structural fuel

/-- The `and` special form: host truthiness, short-circuiting to `False`. -/
def evalAnd (fuel : Nat) (ts : List Ast) (f : Nat) (st : Store) :
    (Except Err Value) × Store :=
  match fuel with
  | 0 => (.error .fuel, st)
  | fuel + 1 =>
    match ts with
    | [] => (.ok (.bool true), st)
    | t :: rest =>
      match evaluate fuel t f st with
      | (.ok v, st') =>
        if truthy v then evalAnd fuel rest f st' else (.ok (.bool false), st')
      | r => r
termination_by structural fuel

/-- The `or` special form: host truthiness, short-circuiting to `True`. -/
def evalOr (fuel : Nat) (ts : List Ast) (f : Nat) (st : Store) :
    (Except Err Value) × Store :=
  match fuel with
  | 0 => (.error .fuel, st)
  | fuel + 1 =>
    match ts with
    | [] => (.ok (.bool false), st)
    | t :: rest =>
      match evaluate fuel t f st with
      | (.ok v, st') =>
        if truthy v then (.ok (.bool true), st') else evalOr fuel rest f st'
      | r => r
termination_by structural fuel

/-- The binding loop of `let`: evaluate each `vi` in the new child frame
`baby` and bind `ni` there.  A binder pair missing its value expression
indexes out of range before anything is evaluated; non-symbol binder names
mirror the host behaviours described at `bindParams`. -/
def evalLetBinds (fuel : Nat) (bs : List Ast) (baby : Nat) (st : Store) :
    (Except Err Unit) × Store :=
  match fuel with
  | 0 => (.error .fuel, st)
  | fuel + 1 =>
    match bs with
    | [] => (.ok (), st)
    | b :: rest =>
      match b with
      | .node (n :: vExpr :: _) =>
        match evaluate fuel vExpr baby st with
        | (.ok v, st') =>
          match n with
          | .sym s => evalLetBinds fuel rest baby (bindVar st' baby s v)
          | .num _ => (.error .hostUnmodelled, st')
          | .node _ => (.error .hostType, st')
        | (.error e, st') => (.error e, st')
      | .node _ => (.error .hostIndex, st)
      | .num _ => (.error .hostType, st)
      | .sym _ => (.error .hostUnmodelled, st)
termination_by structural fuel

/-- Value application: `Function.__call__` for closures (create the call
frame as a child of the captured frame, then check arity, then bind and
evaluate the body), dispatch for native procedures, a host TypeError for
the callable-but-unconstructible `Nill` class, and the evaluator's
not-callable error for every other value. -/
def applyVal (fuel : Nat) (fn : Value) (args : List Value) (st : Store) :
    (Except Err Value) × Store :=
  match fuel with
  | 0 => (.error .fuel, st)
  | fuel + 1 =>
    match fn with
    | .closure cf params body =>
      let fid := st.length
      let st₀ := st ++ [⟨some cf, []⟩]
      match params with
      | .node ps =>
        if ps.length = args.length then
          match bindParams ps args st₀ fid with
          | .ok st₁ => evaluate fuel body fid st₁
          | .error e => (.error e, st₀)
        else (.error .schemeEval, st₀)
      | .sym _ => (.error .hostUnmodelled, st₀)
      | .num _ => (.error .hostType, st₀)
    | .prim p => applyPrim fuel p args st
    | .nil => (.error .hostType, st)
    | _ => (.error .schemeEval, st)
termination_by structural fuel

/-- Native-procedure dispatch: the pure builtins leave the store untouched;
`map`/`filter`/`reduce` call back into values and may allocate frames. -/
def applyPrim (fuel : Nat) (p : Prim) (args : List Value) (st : Store) :
    (Except Err Value) × Store :=
  match fuel with
  | 0 => (.error .fuel, st)
  | fuel + 1 =>
    match p with
    | .plusP => (plus args, st)
    | .minusP => (minus args, st)
    | .timesP => (product args, st)
    | .divideP => (division args, st)
    | .gtP => (greater args, st)
    | .ltP => (lesser args, st)
    | .geP => (greatereq args, st)
    | .leP => (lessereq args, st)
    | .equalP => (equal args, st)
    | .notP => (not_it args, st)
    | .consP => (cons args, st)
    | .carP => (car args, st)
    | .cdrP => (cdr args, st)
    | .listMk => (.ok (list args), st)
    | .islistP => ((Value.bool ·) <$> islist args, st)
    | .appendP => (append args, st)
    | .lengthP => ((fun n => Value.num (.i n)) <$> list_length args, st)
    | .listRefP => (list_indexing args, st)
    | .beginP => (beign args, st)
    | .mapP =>
      match args with
      | fv :: l :: _ => mapGo fuel fv l st
      | _ => (.error .hostIndex, st)
    | .filterP =>
      match args with
      | fv :: l :: _ => filterGo fuel fv l st
      | _ => (.error .hostIndex, st)
    | .reduceP =>
      match args with
      | fv :: t :: v :: _ => reduceGo fuel fv t v st
      | _ => (.error .hostIndex, st)
termination_by structural fuel

/-- `Builtin.map_func`: apply the function to each element's `car` (raising
`car`'s error on a non-`Pair`), recursing on the `cdr`. -/
def mapGo (fuel : Nat) (fv l : Value) (st : Store) :
    (Except Err Value) × Store :=
  match fuel with
  | 0 => (.error .fuel, st)
  | fuel + 1 =>
    match l with
    | .nil => (.ok .nil, st)
    | .pair a d =>
      match applyVal fuel fv [a] st with
      | (.ok r, st') =>
        match mapGo fuel fv d st' with
        | (.ok rest, st'') => (.ok (.pair r rest), st'')
        | r' => r'
      | r' => r'
    | _ => (.error .schemeEval, st)
termination_by structural fuel

/-- `Builtin.filter`. -/
def filterGo (fuel : Nat) (fv l : Value) (st : Store) :
    (Except Err Value) × Store :=
  match fuel with
  | 0 => (.error .fuel, st)
  | fuel + 1 =>
    match l with
    | .nil => (.ok .nil, st)
    | .pair a d =>
      match applyVal fuel fv [a] st with
      | (.ok pv, st') =>
        if truthy pv then
          match filterGo fuel fv d st' with
          | (.ok rest, st'') => (.ok (.pair a rest), st'')
          | r' => r'
        else filterGo fuel fv d st'
      | r' => r'
    | _ => (.error .schemeEval, st)
termination_by structural fuel

/-- `Builtin.reduce`: left fold from the front of the list; reading `.cdr`
of a non-`Pair` non-`Nill` accumulator list raises a host AttributeError. -/
def reduceGo (fuel : Nat) (fv t v : Value) (st : Store) :
    (Except Err Value) × Store :=
  match fuel with
  | 0 => (.error .fuel, st)
  | fuel + 1 =>
    match t with
    | .nil => (.ok v, st)
    | .pair a d =>
      match applyVal fuel fv [v, a] st with
      | (.ok acc, st') => reduceGo fuel fv d acc st'
      | r' => r'
    | _ => (.error .hostAttribute, st)


termination_by structural fuel
end

/-- The binding dict installed by `Builtin.__init__`, in source order. -/
def builtinBindings : Bindings :=
  [("+", .prim .plusP), ("-", .prim .minusP), ("*", .prim .timesP),
   ("/", .prim .divideP), ("#t", .bool true), ("#f", .bool false),
   (">", .prim .gtP), ("<", .prim .ltP), (">=", .prim .geP),
   ("<=", .prim .leP), ("equal?", .prim .equalP), ("not", .prim .notP),
   ("cons", .prim .consP), ("car", .prim .carP), ("cdr", .prim .cdrP),
   ("nil", .nil), ("list", .prim .listMk), ("list?", .prim .islistP),
   ("append", .prim .appendP), ("length", .prim .lengthP),
   ("list-ref", .prim .listRefP), ("map", .prim .mapP),
   ("filter", .prim .filterP), ("reduce", .prim .reduceP),
   ("begin", .prim .beginP)]

/-- The `Builtin` root frame: parentless, holding the builtin bindings. -/
def builtinFrame : FrameData := ⟨none, builtinBindings⟩

/-- The store after `Frame()` builds a fresh user frame over a fresh
`Builtin` root: frame 0 is the root, frame 1 the global user frame. -/
def initStore : Store := [builtinFrame, ⟨some 0, []⟩]

/-! ## Bridge definitions used by the theorems -/

/-- Shorthand for an integer value. -/
def iv (n : Int) : Value := .num (.i n)

/-- The Lean list of elements of a proper list value (`none` when the chain
does not terminate in `Nill` through pairs). -/
def toListV : Value → Option (List Value)
  | .nil => some []
  | .pair a d => (a :: ·) <$> toListV d
  | _ => none

/-! ## C8: `#t` and `#f` are ordinary global bindings, not literals -/

/-- C8: the tokens `#t`/`#f` tokenize and parse as ordinary symbol strings
(not literal syntax), the global user frame does not bind them itself, and
evaluating them performs a chain lookup that resolves to the boolean values
pre-installed in the parentless `Builtin` frame's binding dict. -/
theorem claim_C8_hash_booleans_are_global_bindings :
    tokenize "#t" = ["#t"] ∧ tokenize "#f" = ["#f"] ∧
    parse ["#t"] = .ok (.sym "#t") ∧ parse ["#f"] = .ok (.sym "#f") ∧
    dictGet builtinBindings "#t" = some (.bool true) ∧
    dictGet builtinBindings "#f" = some (.bool false) ∧
    builtinFrame.parent = none ∧
    initStore.get? 1 = some ⟨some 0, []⟩ ∧
    (evaluate 5 (.sym "#t") 1 initStore).1 = .ok (.bool true) ∧
    (evaluate 5 (.sym "#f") 1 initStore).1 = .ok (.bool false) :=
  ⟨rfl, rfl, rfl, rfl, rfl, rfl, rfl, rfl, rfl, rfl⟩

/-! ## C2: `append` on proper-list arguments -/

/-- C2 counterexample material: with every argument `Nill` or a proper list,
`(append nil (list 1) (list 2))` must by the claim return the list `(1 2)`;
the source instead raises a `SchemeEvaluationError`, because after the first
argument copies to `Nill` the `end_of_list` pointer is never re-pointed at
the replacement list, so the third argument's walk calls `cdr` on `Nill`.
The first conjunct evaluates the builtin at the failing input; the second
records that each argument passes the source's own `islist` test; the third
states the result is not the concatenation (nor any other success). -/
theorem claim_C2_append_nil_first_counterexample :
    append [.nil, list [iv 1], list [iv 2]] = .error .schemeEval ∧
    (islist [(.nil : Value)] = .ok true ∧
     islist [list [iv 1]] = .ok true ∧
     islist [list [iv 2]] = .ok true) ∧
    ∀ v, append [.nil, list [iv 1], list [iv 2]] ≠ .ok v :=
  ⟨rfl, ⟨rfl, rfl, rfl⟩, fun _ h => Except.noConfusion h⟩

/-! ## C9: division by zero escapes the SchemeError taxonomy -/

/-- The division loop hits the host ZeroDivisionError at the first zero
divisor when all operands are numeric. -/
theorem divisionLoop_zero (n : PyNum) (rest : List Value)
    (hnums : ∀ v ∈ rest, (asNum v).isSome)
    (hzero : ∃ v ∈ rest, ∃ z, asNum v = some z ∧ z.toRat = 0) :
    divisionLoop n rest = .error .hostZeroDivision := by
  induction rest generalizing n with
  | nil => rcases hzero with ⟨v, hv, _⟩; cases hv
  | cons v rest ih =>
    obtain ⟨d, hv⟩ : ∃ d, asNum v = some d :=
      Option.isSome_iff_exists.mp (hnums v (by simp))
    by_cases hd : d.toRat = 0
    · simp only [divisionLoop, hv, hd, if_true]
    · simp only [divisionLoop, hv, hd, if_false]
      apply ih
      · exact fun u hu => hnums u (List.mem_cons_of_mem _ hu)
      · rcases hzero with ⟨w, hw, z, hz, hz0⟩
        rcases List.mem_cons.mp hw with rfl | hw'
        · rw [hv] at hz
          injection hz with h
          exact absurd (h ▸ hz0) hd
        · exact ⟨w, hw', z, hz, hz0⟩

/-- C9: applying `/` to numeric arguments with a zero after the first raises
the host's ZeroDivisionError, which lies outside the `SchemeError`
taxonomy — a caller catching only the declared Scheme error kinds misses
it. -/
theorem claim_C9_division_by_zero_is_host_error
    (a : Value) (rest : List Value)
    (hnums : ∀ v ∈ a :: rest, (asNum v).isSome)
    (hzero : ∃ v ∈ rest, ∃ z, asNum v = some z ∧ z.toRat = 0) :
    division (a :: rest) = .error .hostZeroDivision ∧
    Err.isSchemeError .hostZeroDivision = false := by
  refine ⟨?_, rfl⟩
  rcases hzero with ⟨w, hw, z, hz, hz0⟩
  cases rest with
  | nil => cases hw
  | cons b rest' =>
    rcases ha : asNum a with _ | n
    · have := hnums a (by simp)
      rw [ha] at this; cases this
    · have hzz := divisionLoop_zero n (b :: rest')
        (fun u hu => hnums u (List.mem_cons_of_mem _ hu)) ⟨w, hw, z, hz, hz0⟩
      simp only [division, ha, hzz]
      rfl

/-- C9 witness: `(/ 1 0)` concretely. -/
theorem claim_C9_division_by_zero_witness :
    division [iv 1, iv 0] = .error .hostZeroDivision ∧
    Err.isSchemeError .hostZeroDivision = false := by
  refine claim_C9_division_by_zero_is_host_error (iv 1) [iv 0] ?_ ?_
  · intro v hv
    rcases List.mem_cons.mp hv with rfl | hv'
    · rfl
    · rcases List.mem_cons.mp hv' with rfl | hv''
      · rfl
      · cases hv''
  · exact ⟨iv 0, by simp, .i 0, rfl, rfl⟩

/-! ## C1: the `if` form's branch test -/

/-- C1 counterexample: the claim says any non-boolean-true condition result,
including nonzero numbers, selects the else branch, so `(if 1 1 2)` would
have to give `2`.  The source tests `evaluate(cond) == True`, and in the
host `1 == True` holds, so the then branch is taken and the result is `1`,
a value that is not the boolean true value. -/
theorem claim_C1_if_counterexample :
    (evaluate 5 (.node [.sym "if", .num (.i 1), .num (.i 1), .num (.i 2)])
        1 initStore).1 = .ok (iv 1) ∧
    iv 1 ≠ .bool true ∧
    (.ok (iv 1) : Except Err Value) ≠ .ok (iv 2) := by
  refine ⟨rfl, ?_, ?_⟩ <;> simp [iv]

/-- C1 amended: the then branch is taken exactly when the condition's value
compares equal to the host's `True` — the boolean true value or a number
equal to 1 — and every other value, including 0 and nonzero numbers other
than 1, selects the else branch; the branch not taken contributes nothing
(the result is exactly the chosen branch's evaluation in the post-condition
store).  In particular `(if 0 1 2)` still evaluates to `2`. -/
theorem claim_C1_if_amended (fuel : Nat) (c th el : Ast) (f : Nat)
    (st st' : Store) (v : Value)
    (hc : evaluate fuel c f st = (.ok v, st')) :
    (evaluate (fuel + 1) (.node [.sym "if", c, th, el]) f st =
      if pyEqTrue v then evaluate fuel th f st' else evaluate fuel el f st') ∧
    (∀ w, pyEqTrue w = true ↔
      (w = .bool true ∨ ∃ n, w = .num n ∧ n.toRat = 1)) ∧
    (evaluate 5 (.node [.sym "if", .num (.i 0), .num (.i 1), .num (.i 2)])
        1 initStore).1 = .ok (iv 2) := by
  refine ⟨?_, ?_, rfl⟩
  · simp only [evaluate, hc]
  · intro w
    cases w with
    | num n =>
      simp only [pyEqTrue]
      constructor
      · intro h
        split at h
        · exact Or.inr ⟨n, rfl, by assumption⟩
        · cases h
      · rintro (h | ⟨m, hm, h1⟩)
        · cases h
        · injection hm with hm'
          simp [hm' ▸ h1]
    | bool b => cases b <;> simp [pyEqTrue]
    | nil => simp [pyEqTrue]
    | pair a d => simp [pyEqTrue]
    | closure i p c => simp [pyEqTrue]
    | prim p => simp [pyEqTrue]

/-- C1 witness for the amended theorem, at condition `0`: the else branch is
selected. -/
theorem claim_C1_if_amended_witness :
    evaluate 2 (.node [.sym "if", .num (.i 0), .num (.i 1), .num (.i 2)])
        1 initStore =
      if pyEqTrue (iv 0) then evaluate 1 (.num (.i 1)) 1 initStore
      else evaluate 1 (.num (.i 2)) 1 initStore :=
  (claim_C1_if_amended 1 (.num (.i 0)) (.num (.i 1)) (.num (.i 2)) 1
    initStore initStore (iv 0) rfl).1

/-! ## C4: closure call semantics -/

/-- The AST of `(define (square x) (* x x))` as `parse` produces it. -/
def squareDef : Ast :=
  .node [.sym "define", .node [.sym "square", .sym "x"],
    .node [.sym "*", .sym "x", .sym "x"]]

/-- C4: calling a closure first allocates one fresh frame whose parent is
the captured defining frame; an argument-count mismatch then raises an
evaluation error with the body never evaluated (the resulting store holds
only the untouched fresh frame); on a match the parameters are bound in the
fresh frame and the body is evaluated there.  Concretely, after
`(define (square x) (* x x))`, `(square 5)` gives `25` and calling `square`
with zero or two arguments fails with the evaluation error. -/
theorem claim_C4_closure_call (fuel : Nat) (cf : Nat) (ps : List Ast)
    (body : Ast) (args : List Value) (st : Store) :
    (ps.length ≠ args.length →
      applyVal (fuel + 1) (.closure cf (.node ps) body) args st =
        (.error .schemeEval, st ++ [⟨some cf, []⟩])) ∧
    (ps.length = args.length →
      ∀ st₁, bindParams ps args (st ++ [⟨some cf, []⟩]) st.length = .ok st₁ →
        applyVal (fuel + 1) (.closure cf (.node ps) body) args st =
          evaluate fuel body st.length st₁) ∧
    parse (tokenize "(define (square x) (* x x))") = .ok squareDef ∧
    ((evaluate 10 (.node [.sym "square", .num (.i 5)]) 1
        (evaluate 10 squareDef 1 initStore).2).1 = .ok (iv 25) ∧
     (evaluate 10 (.node [.sym "square"]) 1
        (evaluate 10 squareDef 1 initStore).2).1 = .error .schemeEval ∧
     (evaluate 10 (.node [.sym "square", .num (.i 1), .num (.i 2)]) 1
        (evaluate 10 squareDef 1 initStore).2).1 = .error .schemeEval) := by
  refine ⟨?_, ?_, rfl, rfl, rfl, rfl⟩
  · intro hne
    simp only [applyVal, if_neg hne]
  · intro heq st₁ hbind
    simp only [applyVal, if_pos heq, hbind]

/-- C4 witness: the arity-mismatch arm at a concrete zero-argument call of a
one-parameter closure, and the matching arm at `(square 5)`'s call shape. -/
theorem claim_C4_closure_call_witness :
    applyVal 9 (.closure 1 (.node [.sym "x"])
        (.node [.sym "*", .sym "x", .sym "x"])) [] initStore =
      (.error .schemeEval, initStore ++ [⟨some 1, []⟩]) ∧
    applyVal 9 (.closure 1 (.node [.sym "x"])
        (.node [.sym "*", .sym "x", .sym "x"])) [iv 5] initStore =
      evaluate 8 (.node [.sym "*", .sym "x", .sym "x"]) 2
        (bindVar (initStore ++ [⟨some 1, []⟩]) 2 "x" (iv 5)) := by
  constructor
  · exact (claim_C4_closure_call 8 1 [.sym "x"]
      (.node [.sym "*", .sym "x", .sym "x"]) [] initStore).1 (by simp)
  · exact (claim_C4_closure_call 8 1 [.sym "x"]
      (.node [.sym "*", .sym "x", .sym "x"]) [iv 5] initStore).2.1 rfl _ rfl

/-! ## C10: `list-ref` on proper lists is total -/

/-- Binding an `Except.ok` in `do` notation reduces to the continuation. -/
theorem ok_bind {α β : Type} (a : α) (k : α → Except Err β) :
    (Except.ok a : Except Err α) >>= k = k a := rfl

/-- Destructor for `toListV` at a pair. -/
theorem toListV_pair_elim (a d : Value) (xs : List Value)
    (h : toListV (.pair a d) = some xs) :
    ∃ xs', toListV d = some xs' ∧ xs = a :: xs' := by
  simp only [toListV, Option.map_eq_map, Option.map_eq_some'] at h
  rcases h with ⟨l, hl, hc⟩
  exact ⟨l, hl, hc.symm⟩

/-- `toListV` rejects atoms that are neither `Nill` nor pairs. -/
theorem toListV_atom_elim (v : Value) (xs : List Value)
    (hv : (match v with | .pair _ _ => False | .nil => False | _ => True))
    (h : toListV v = some xs) : False := by
  cases v <;> simp_all [toListV]

/-- A value with an element list is accepted by the source's `islist`
chain check. -/
theorem islistV_of_toListV (v : Value) (xs : List Value)
    (h : toListV v = some xs) : islistV v = true := by
  induction v generalizing xs with
  | nil => rfl
  | pair a d iha ihd =>
    obtain ⟨xs', hd, rfl⟩ := toListV_pair_elim _ _ _ h
    cases d with
    | pair b d' => simpa [islistV] using ihd _ hd
    | nil => rfl
    | num n => simp [toListV] at hd
    | bool b => simp [toListV] at hd
    | closure i p c => simp [toListV] at hd
    | prim p => simp [toListV] at hd
  | num n => simp [toListV] at h
  | bool b => simp [toListV] at h
  | closure i p c => simp [toListV] at h
  | prim p => simp [toListV] at h

/-- `islist` accepts the singleton of a proper list. -/
theorem islist_of_toListV (v : Value) (xs : List Value)
    (h : toListV v = some xs) : islist [v] = .ok true := by
  cases v with
  | nil => rfl
  | pair a d => simp [islist, islistV_of_toListV _ _ h]
  | num n => simp [toListV] at h
  | bool b => simp [toListV] at h
  | closure i p c => simp [toListV] at h
  | prim p => simp [toListV] at h

/-- The counting loop of `length` computes the element count of a nonempty
proper list. -/
theorem lengthLoop_toListV (v : Value) (xs : List Value)
    (h : toListV v = some xs) (hne : xs ≠ []) :
    lengthLoop v = .ok (xs.length : Int) := by
  induction v generalizing xs with
  | pair a d iha ihd =>
    obtain ⟨xs', hd, rfl⟩ := toListV_pair_elim _ _ _ h
    cases d with
    | nil =>
      simp only [toListV, Option.some.injEq] at hd
      subst hd
      rfl
    | pair b d' =>
      obtain ⟨l, _, rfl⟩ := toListV_pair_elim _ _ _ hd
      have hll := ihd _ hd (by simp)
      simp only [lengthLoop, hll, Except.map_ok]
      congr 1
      simp only [List.length_cons]
      push_cast
      ring
    | num n => simp [toListV] at hd
    | bool b => simp [toListV] at hd
    | closure i p c => simp [toListV] at hd
    | prim p => simp [toListV] at hd
  | nil =>
    simp only [toListV, Option.some.injEq] at h
    subst h
    exact absurd rfl hne
  | num n => simp [toListV] at h
  | bool b => simp [toListV] at h
  | closure i p c => simp [toListV] at h
  | prim p => simp [toListV] at h

/-- `length` on (the singleton of) a proper list returns its element
count. -/
theorem list_length_toListV (v : Value) (xs : List Value)
    (h : toListV v = some xs) : list_length [v] = .ok (xs.length : Int) := by
  cases v with
  | nil =>
    simp only [toListV, Option.some.injEq] at h
    subst h
    rfl
  | pair a d =>
    obtain ⟨xs', hd, rfl⟩ := toListV_pair_elim _ _ _ h
    have h1 := islist_of_toListV _ _ (show toListV (.pair a d) = some (a :: xs') from h)
    have h2 := lengthLoop_toListV _ _ h (by simp)
    simp [list_length, h1, h2, ok_bind]
  | num n => simp [toListV] at h
  | bool b => simp [toListV] at h
  | closure i p c => simp [toListV] at h
  | prim p => simp [toListV] at h

/-- The index walk returns the `k`-th element when `k` is in range. -/
theorem walkIndex_nat (v : Value) (xs : List Value) (k : Nat)
    (h : toListV v = some xs) (hk : k < xs.length) :
    walkIndex v (k : Rat) = .ok (xs.get ⟨k, hk⟩) := by
  induction v generalizing xs k with
  | pair a d iha ihd =>
    obtain ⟨xs', hd, rfl⟩ := toListV_pair_elim _ _ _ h
    cases k with
    | zero => simp [walkIndex, car]
    | succ k' =>
      have hne : ((k' + 1 : Nat) : Rat) ≠ 0 := by positivity
      have hstep : ((k' + 1 : Nat) : Rat) - 1 = (k' : Rat) := by push_cast; ring
      have hk' : k' < xs'.length := by simpa using hk
      simp only [walkIndex, Nat.cast_add, Nat.cast_one, if_neg (by push_cast at hne ⊢; exact hne)]
      rw [show ((k' : Rat) + 1) - 1 = (k' : Rat) by ring]
      exact ihd _ _ hd hk'
  | nil =>
    simp only [toListV, Option.some.injEq] at h
    subst h
    cases hk
  | num n => simp [toListV] at h
  | bool b => simp [toListV] at h
  | closure i p c => simp [toListV] at h
  | prim p => simp [toListV] at h

/-- The index walk on a proper list with a negative index never reaches 0:
it walks off the end of the chain and raises `cdr`'s evaluation error. -/
theorem walkIndex_neg (v : Value) (xs : List Value) (q : Rat)
    (h : toListV v = some xs) (hq : q < 0) :
    walkIndex v q = .error .schemeEval := by
  induction v generalizing xs q with
  | pair a d iha ihd =>
    obtain ⟨xs', hd, rfl⟩ := toListV_pair_elim _ _ _ h
    rw [walkIndex, if_neg (ne_of_lt hq)]
    exact ihd _ _ hd (by linarith)
  | nil =>
    simp [walkIndex, ne_of_lt hq]
  | num n => simp [toListV] at h
  | bool b => simp [toListV] at h
  | closure i p c => simp [toListV] at h
  | prim p => simp [toListV] at h

/-- `list-ref` on a proper list and a numeric index reduces to the length
guard and the walk. -/
theorem list_indexing_proper (lst idx : Value) (xs : List Value) (n : PyNum)
    (hl : toListV lst = some xs) (hn : asNum idx = some n) :
    list_indexing [lst, idx] =
      if n.toRat < ((xs.length : Int) : Rat) then walkIndex lst n.toRat
      else .error .schemeEval := by
  have hisl := islist_of_toListV _ _ hl
  have hlen := list_length_toListV _ _ hl
  simp [list_indexing, hisl, hlen, hn, ok_bind]

/-- C10: `list-ref` on a proper list and an integer index returns the
`i`-th element when `0 ≤ i < length`, and raises the Scheme evaluation
error (not a host error, and without diverging — the walk terminates) for
every other integer index: negative indices pass the length guard but walk
off the end of the chain into `cdr`'s error, and too-large indices fail
the guard. -/
theorem claim_C10_list_ref_total (lst : Value) (xs : List Value) (i : Int)
    (hl : toListV lst = some xs) :
    (∀ hnn : 0 ≤ i, ∀ hrange : i.toNat < xs.length,
      list_indexing [lst, iv i] = .ok (xs.get ⟨i.toNat, hrange⟩)) ∧
    (i < 0 → list_indexing [lst, iv i] = .error .schemeEval) ∧
    ((xs.length : Int) ≤ i → list_indexing [lst, iv i] = .error .schemeEval) := by
  have hred := list_indexing_proper lst (iv i) xs (.i i) hl rfl
  refine ⟨?_, ?_, ?_⟩
  · intro hnn hrange
    have hlt : (PyNum.i i).toRat < ((xs.length : Int) : Rat) := by
      have h1 : i < (xs.length : Int) := by omega
      simp only [PyNum.toRat]
      exact_mod_cast h1
    rw [hred, if_pos hlt]
    have hcast : (PyNum.i i).toRat = ((i.toNat : Nat) : Rat) := by
      simp only [PyNum.toRat]
      exact_mod_cast (Int.toNat_of_nonneg hnn).symm
    rw [hcast]
    exact walkIndex_nat _ _ _ hl hrange
  · intro hneg
    have hlt : (PyNum.i i).toRat < ((xs.length : Int) : Rat) := by
      have h1 : i < (xs.length : Int) := by omega
      simp only [PyNum.toRat]
      exact_mod_cast h1
    rw [hred, if_pos hlt]
    refine walkIndex_neg _ _ _ hl ?_
    have : ((i : Int) : Rat) < ((0 : Int) : Rat) := by exact_mod_cast hneg
    simpa [PyNum.toRat] using this
  · intro hge
    have hnlt : ¬ (PyNum.i i).toRat < ((xs.length : Int) : Rat) := by
      simp only [PyNum.toRat]
      have : ((xs.length : Int) : Rat) ≤ ((i : Int) : Rat) := by exact_mod_cast hge
      exact not_lt.mpr this
    rw [hred, if_neg hnlt]

/-- C10 witness: `(list-ref (list 7 8) 1)` gives `8`; `(list-ref (list 7 8)
-1)` and `(list-ref (list 7 8) 2)` raise the evaluation error. -/
theorem claim_C10_list_ref_witness :
    list_indexing [list [iv 7, iv 8], iv 1] = .ok (iv 8) ∧
    list_indexing [list [iv 7, iv 8], iv (-1)] = .error .schemeEval ∧
    list_indexing [list [iv 7, iv 8], iv 2] = .error .schemeEval := by
  have h := claim_C10_list_ref_total (list [iv 7, iv 8]) [iv 7, iv 8]
  refine ⟨?_, ?_, ?_⟩
  · exact (h 1 rfl).1 (by decide) (by decide)
  · exact (h (-1) rfl).2.1 (by decide)
  · exact (h 2 rfl).2.2 (by decide)


/-! ## C7: `del` semantics -/

/-- A successful `dictPop` pops exactly the value `dictGet` sees. -/
theorem dictGet_of_dictPop (b : Bindings) (k : String) (v : Value)
    (b' : Bindings) (h : dictPop b k = some (v, b')) : dictGet b k = some v := by
  induction b generalizing v b' with
  | nil => cases h
  | cons e rest ih =>
    obtain ⟨k', w⟩ := e
    by_cases hk : k' = k
    · simp only [dictPop, if_pos hk] at h
      injection h with h'
      injection h' with h1 h2
      simp [dictGet, hk, h1]
    · simp only [dictPop, if_neg hk] at h
      simp only [dictGet, if_neg hk]
      cases hrec : dictPop rest k with
      | none => rw [hrec] at h; cases h
      | some p =>
        obtain ⟨w', rest'⟩ := p
        rw [hrec] at h
        injection h with h'
        injection h' with h1 h2
        rw [← h1]
        exact ih _ _ hrec

/-- `dictPop` fails exactly when the key is absent. -/
theorem dictPop_none_iff (b : Bindings) (k : String) :
    dictPop b k = none ↔ dictGet b k = none := by
  induction b with
  | nil => simp [dictPop, dictGet]
  | cons e rest ih =>
    obtain ⟨k', w⟩ := e
    by_cases hk : k' = k
    · simp [dictPop, dictGet, hk]
    · simp only [dictPop, dictGet, if_neg hk]
      cases hrec : dictPop rest k with
      | none => simpa [hrec] using ih
      | some p => simpa [hrec] using ih

/-- C7: `(del name)` first evaluates `name` as an ordinary expression — so
an entirely unbound name propagates the lookup's `SchemeNameError` with no
frame modified — and otherwise removes and returns the binding from the
current frame only: a name bound somewhere in the chain but not in the
current frame raises `SchemeNameError`, and a name bound in the current
frame is popped from it (other frames untouched) and its value returned. -/
theorem claim_C7_del_current_frame_only (fuel : Nat) (s : String) (f : Nat)
    (st : Store) :
    (lookupVar st f s = .error .schemeName →
      evaluate (fuel + 2) (.node [.sym "del", .sym s]) f st =
        (.error .schemeName, st)) ∧
    (∀ v fr, lookupVar st f s = .ok v → st.get? f = some fr →
      dictGet fr.bindings s = none →
      evaluate (fuel + 2) (.node [.sym "del", .sym s]) f st =
        (.error .schemeName, st)) ∧
    (∀ fr v b, st.get? f = some fr → dictPop fr.bindings s = some (v, b) →
      evaluate (fuel + 2) (.node [.sym "del", .sym s]) f st =
        (.ok v, st.set f { fr with bindings := b })) := by
  refine ⟨?_, ?_, ?_⟩
  · intro hlk
    simp only [evaluate, hlk]
  · intro v fr hlk hfr habs
    have hpop : dictPop fr.bindings s = none := (dictPop_none_iff _ _).mpr habs
    simp only [evaluate, hlk, delete, hfr, hpop]
  · intro fr v b hfr hpop
    have hget : dictGet fr.bindings s = some v := dictGet_of_dictPop _ _ _ _ hpop
    have hlk : lookupVar st f s = .ok v := by
      simp only [lookupVar, lookupAux, hfr, hget]
    simp only [evaluate, hlk, delete, hfr, hpop]

/-- C7 witness: over the chain `builtin ← frame 1 (y) ← frame 2 (z)`, from
frame 2: `(del x)` (unbound anywhere) and `(del y)` (bound only in the
ancestor) raise `SchemeNameError`; `(del z)` removes and returns `z`. -/
theorem claim_C7_del_witness :
    (evaluate 4 (.node [.sym "del", .sym "x"]) 2
        [builtinFrame, ⟨some 0, [("y", iv 1)]⟩, ⟨some 1, [("z", iv 2)]⟩] =
      (.error .schemeName,
        [builtinFrame, ⟨some 0, [("y", iv 1)]⟩, ⟨some 1, [("z", iv 2)]⟩])) ∧
    (evaluate 4 (.node [.sym "del", .sym "y"]) 2
        [builtinFrame, ⟨some 0, [("y", iv 1)]⟩, ⟨some 1, [("z", iv 2)]⟩] =
      (.error .schemeName,
        [builtinFrame, ⟨some 0, [("y", iv 1)]⟩, ⟨some 1, [("z", iv 2)]⟩])) ∧
    (evaluate 4 (.node [.sym "del", .sym "z"]) 2
        [builtinFrame, ⟨some 0, [("y", iv 1)]⟩, ⟨some 1, [("z", iv 2)]⟩] =
      (.ok (iv 2),
        [builtinFrame, ⟨some 0, [("y", iv 1)]⟩, ⟨some 1, []⟩])) := by
  refine ⟨?_, ?_, ?_⟩
  · exact (claim_C7_del_current_frame_only 2 "x" 2 _).1 rfl
  · exact (claim_C7_del_current_frame_only 2 "y" 2 _).2.1 (iv 1) _ rfl rfl rfl
  · exact (claim_C7_del_current_frame_only 2 "z" 2 _).2.2
      ⟨some 1, [("z", iv 2)]⟩ (iv 2) [] rfl rfl

/-! ## C3: `set!` semantics -/

/-- The frame id at which the `set_exisits` / lookup walk from frame `i`
finds the nearest binding of `s` (a bridge definition mirroring the walk,
used to state where `set!` writes). -/
def nearestBound (st : Store) : Nat → Nat → String → Option Nat
  | 0, _, _ => none
  | steps + 1, i, s =>
    match st.get? i with
    | none => none
    | some fr =>
      if dictHas fr.bindings s then some i
      else
        match fr.parent with
        | none => none
        | some p => if p < i then nearestBound st steps p s else none

/-- `nearestFrame st i s`: the nearest frame of the chain from `i` that
binds `s`. -/
def nearestFrame (st : Store) (i : Nat) (s : String) : Option Nat :=
  nearestBound st (i + 1) i s

/-- Setting a key makes its lookup return the new value. -/
theorem dictGet_dictSet_self (b : Bindings) (k : String) (v : Value) :
    dictGet (dictSet b k v) k = some v := by
  induction b with
  | nil => simp [dictSet, dictGet]
  | cons e rest ih =>
    obtain ⟨k', w⟩ := e
    by_cases hk : k' = k
    · simp [dictSet, dictGet, hk]
    · simp [dictSet, dictGet, hk, ih]

/-- The nearest-binding frame is never above the walk's origin. -/
theorem nearestBound_le (st : Store) (steps i : Nat) (s : String) (g : Nat)
    (h : nearestBound st steps i s = some g) : g ≤ i := by
  induction steps generalizing i with
  | zero => cases h
  | succ steps ih =>
    cases hfr : st.get? i with
    | none => simp only [nearestBound, hfr] at h; cases h
    | some fr =>
      simp only [nearestBound, hfr] at h
      by_cases hbh : dictHas fr.bindings s
      · rw [if_pos hbh] at h
        injection h with h'
        omega
      · rw [if_neg hbh] at h
        cases hp : fr.parent with
        | none => simp only [hp] at h; cases h
        | some p =>
          simp only [hp] at h
          by_cases hlt : p < i
          · rw [if_pos hlt] at h
            have := ih _ h
            omega
          · rw [if_neg hlt] at h; cases h

/-- When the walk finds a nearest binding, `set_exisits` succeeds and the
store it returns is exactly the one with that frame's binding overwritten
(`bindVar` at the nearest frame). -/
theorem setExisitsAux_nearest (st : Store) (steps i : Nat) (s : String)
    (v : Value) (g : Nat) (h : nearestBound st steps i s = some g) :
    setExisitsAux st steps i s v = .ok (bindVar st g s v) := by
  induction steps generalizing i with
  | zero => cases h
  | succ steps ih =>
    cases hfr : st.get? i with
    | none => simp only [nearestBound, hfr] at h; cases h
    | some fr =>
      simp only [nearestBound, hfr] at h
      by_cases hbh : dictHas fr.bindings s
      · rw [if_pos hbh] at h
        injection h with h'
        subst h'
        simp only [setExisitsAux, hfr, if_pos hbh, bindVar]
      · rw [if_neg hbh] at h
        cases hp : fr.parent with
        | none => simp only [hp] at h; cases h
        | some p =>
          simp only [hp] at h
          by_cases hlt : p < i
          · rw [if_pos hlt] at h
            simp only [setExisitsAux, hfr, if_neg hbh, hp, if_pos hlt]
            exact ih _ h
          · rw [if_neg hlt] at h; cases h

/-- After the overwrite at the nearest binding frame, the lookup walk from
the original frame finds the new value. -/
theorem lookupAux_bindVar_nearest (st : Store) (steps i : Nat) (s : String)
    (v : Value) (g : Nat) (h : nearestBound st steps i s = some g) :
    lookupAux (bindVar st g s v) steps i s = .ok v := by
  induction steps generalizing i with
  | zero => cases h
  | succ steps ih =>
    cases hfr : st.get? i with
    | none => simp only [nearestBound, hfr] at h; cases h
    | some fr =>
      simp only [nearestBound, hfr] at h
      by_cases hbh : dictHas fr.bindings s
      · rw [if_pos hbh] at h
        injection h with h'
        subst h'
        obtain ⟨hlen, _⟩ := List.get?_eq_some.mp hfr
        simp only [lookupAux, bindVar, hfr,
          List.get?_set_eq_of_lt _ hlen, dictGet_dictSet_self]
      · rw [if_neg hbh] at h
        cases hp : fr.parent with
        | none => simp only [hp] at h; cases h
        | some p =>
          simp only [hp] at h
          by_cases hlt : p < i
          · rw [if_pos hlt] at h
            have hgle : g ≤ p := nearestBound_le _ _ _ _ _ h
            have hne : g ≠ i := by omega
            have habs : dictGet fr.bindings s = none := by
              cases hget : dictGet fr.bindings s with
              | none => rfl
              | some w => rw [dictHas, hget] at hbh; cases hbh rfl
            have hstep := ih _ h
            cases hfrg : st.get? g with
            | none =>
              simp only [bindVar, hfrg] at hstep ⊢
              simp only [lookupAux, hfr, habs, hp, if_pos hlt]
              exact hstep
            | some frg =>
              simp only [bindVar, hfrg] at hstep ⊢
              simp only [lookupAux, List.get?_set_ne _ _ hne, hfr, habs, hp,
                if_pos hlt]
              exact hstep
          · rw [if_neg hlt] at h; cases h

/-- After the overwrite, looking up directly in the overwritten frame finds
the new value. -/
theorem lookupVar_bindVar_self (st : Store) (g : Nat) (s : String) (v : Value)
    (fr : FrameData) (hfr : st.get? g = some fr) :
    lookupVar (bindVar st g s v) g s = .ok v := by
  obtain ⟨hlen, _⟩ := List.get?_eq_some.mp hfr
  simp only [lookupVar, lookupAux, bindVar, hfr,
    List.get?_set_eq_of_lt _ hlen, dictGet_dictSet_self]

/-- C3: `(set! name expr)` first confirms `name` is bound via lookup — an
entirely unbound name propagates `SchemeNameError` with `expr` never
evaluated and the store returned untouched — and otherwise evaluates `expr`
in the current frame, overwrites the binding in the nearest frame of the
chain that has one, returns the evaluated value, and the new value is
observable by a subsequent lookup from the original frame and from the
overwritten (possibly ancestor) frame itself. -/
theorem claim_C3_set_bang_nearest_frame (fuel : Nat) (s : String) (e : Ast)
    (f : Nat) (st : Store) :
    (lookupVar st f s = .error .schemeName →
      evaluate (fuel + 1) (.node [.sym "set!", .sym s, e]) f st =
        (.error .schemeName, st)) ∧
    (∀ v₀ v st' g fr, lookupVar st f s = .ok v₀ →
      evaluate fuel e f st = (.ok v, st') →
      nearestFrame st' f s = some g →
      st'.get? g = some fr →
      evaluate (fuel + 1) (.node [.sym "set!", .sym s, e]) f st =
        (.ok v, bindVar st' g s v) ∧
      lookupVar (bindVar st' g s v) f s = .ok v ∧
      lookupVar (bindVar st' g s v) g s = .ok v) := by
  constructor
  · intro hlk
    simp only [evaluate, hlk]
  · intro v₀ v st' g fr hlk he hnear hfr
    have hset := setExisitsAux_nearest st' (f + 1) f s v g hnear
    refine ⟨?_, ?_, ?_⟩
    · simp only [evaluate, hlk, he, set_exisits, hset]
    · exact lookupAux_bindVar_nearest st' (f + 1) f s v g hnear
    · exact lookupVar_bindVar_self st' g s v fr hfr

/-- C3 witness: over `builtin ← frame 1 (y=1) ← frame 2`, from frame 2:
`(set! q 9)` on the unbound `q` raises `SchemeNameError` with no frame
modified, and `(set! y 9)` mutates the ancestor frame 1's binding,
observable from frame 2 and from frame 1. -/
theorem claim_C3_set_bang_witness :
    (evaluate 4 (.node [.sym "set!", .sym "q", .num (.i 9)]) 2
        [builtinFrame, ⟨some 0, [("y", iv 1)]⟩, ⟨some 1, []⟩] =
      (.error .schemeName,
        [builtinFrame, ⟨some 0, [("y", iv 1)]⟩, ⟨some 1, []⟩])) ∧
    (evaluate 4 (.node [.sym "set!", .sym "y", .num (.i 9)]) 2
        [builtinFrame, ⟨some 0, [("y", iv 1)]⟩, ⟨some 1, []⟩] =
      (.ok (iv 9),
        bindVar [builtinFrame, ⟨some 0, [("y", iv 1)]⟩, ⟨some 1, []⟩] 1 "y" (iv 9)) ∧
     lookupVar (bindVar [builtinFrame, ⟨some 0, [("y", iv 1)]⟩, ⟨some 1, []⟩]
        1 "y" (iv 9)) 2 "y" = .ok (iv 9) ∧
     lookupVar (bindVar [builtinFrame, ⟨some 0, [("y", iv 1)]⟩, ⟨some 1, []⟩]
        1 "y" (iv 9)) 1 "y" = .ok (iv 9)) := by
  constructor
  · exact (claim_C3_set_bang_nearest_frame 3 "q" (.num (.i 9)) 2 _).1 rfl
  · exact (claim_C3_set_bang_nearest_frame 3 "y" (.num (.i 9)) 2 _).2
      (iv 1) (iv 9) _ 1 ⟨some 0, [("y", iv 1)]⟩ rfl rfl rfl rfl

/-! ## C5: `let` creates one child frame and the current frame gains no
bindings.  The second half needs an invariant over the whole evaluator:
no evaluation step ever adds a key to a pre-existing frame other than the
frame it directly targets. -/

/-- Frame `g` of the store binds the key `k`. -/
def hasKey (st : Store) (g : Nat) (k : String) : Prop :=
  ∃ fr, st.get? g = some fr ∧ dictHas fr.bindings k = true

/-- Evaluation targeted at frame `f` only ever grows the store and never
adds keys to a pre-existing frame other than `f`. -/
def MonoAt (f : Nat) (st st' : Store) : Prop :=
  st.length ≤ st'.length ∧
    ∀ g, g < st.length → g ≠ f → ∀ k, hasKey st' g k → hasKey st g k

/-- Procedure application never adds keys to any pre-existing frame (its
writes go to freshly allocated call frames). -/
def MonoAll (st st' : Store) : Prop :=
  st.length ≤ st'.length ∧
    ∀ g, g < st.length → ∀ k, hasKey st' g k → hasKey st g k

theorem monoAt_rfl (f : Nat) (st : Store) : MonoAt f st st :=
  ⟨Nat.le_refl _, fun _ _ _ _ h => h⟩

theorem monoAll_rfl (st : Store) : MonoAll st st :=
  ⟨Nat.le_refl _, fun _ _ _ h => h⟩

theorem monoAt_of_monoAll (f : Nat) (st st' : Store) (h : MonoAll st st') :
    MonoAt f st st' :=
  ⟨h.1, fun g hg _ k hk => h.2 g hg k hk⟩

theorem monoAt_trans (f : Nat) (st st₁ st₂ : Store)
    (h1 : MonoAt f st st₁) (h2 : MonoAt f st₁ st₂) : MonoAt f st st₂ :=
  ⟨Nat.le_trans h1.1 h2.1,
   fun g hg hgf k hk =>
     h1.2 g hg hgf k (h2.2 g (Nat.lt_of_lt_of_le hg h1.1) hgf k hk)⟩

theorem monoAt_trans_all (f : Nat) (st st₁ st₂ : Store)
    (h1 : MonoAt f st st₁) (h2 : MonoAll st₁ st₂) : MonoAt f st st₂ :=
  ⟨Nat.le_trans h1.1 h2.1,
   fun g hg hgf k hk =>
     h1.2 g hg hgf k (h2.2 g (Nat.lt_of_lt_of_le hg h1.1) k hk)⟩

theorem monoAt_trans_hi (f fHi : Nat) (st st₁ st₂ : Store)
    (h1 : MonoAt f st st₁) (h2 : MonoAt fHi st₁ st₂)
    (hhi : st.length ≤ fHi) : MonoAt f st st₂ :=
  ⟨Nat.le_trans h1.1 h2.1,
   fun g hg hgf k hk =>
     h1.2 g hg hgf k
       (h2.2 g (Nat.lt_of_lt_of_le hg h1.1) (by omega) k hk)⟩

theorem monoAll_trans (st st₁ st₂ : Store)
    (h1 : MonoAll st st₁) (h2 : MonoAll st₁ st₂) : MonoAll st st₂ :=
  ⟨Nat.le_trans h1.1 h2.1,
   fun g hg k hk => h1.2 g hg k (h2.2 g (Nat.lt_of_lt_of_le hg h1.1) k hk)⟩

theorem monoAll_trans_hi (fHi : Nat) (st st₁ st₂ : Store)
    (h1 : MonoAll st st₁) (h2 : MonoAt fHi st₁ st₂)
    (hhi : st.length ≤ fHi) : MonoAll st st₂ :=
  ⟨Nat.le_trans h1.1 h2.1,
   fun g hg k hk =>
     h1.2 g hg k (h2.2 g (Nat.lt_of_lt_of_le hg h1.1) (by omega) k hk)⟩

/-- Appending fresh frames touches no pre-existing frame. -/
theorem monoAll_append (st : Store) (l : Store) : MonoAll st (st ++ l) := by
  refine ⟨by simp, fun g hg k hk => ?_⟩
  rcases hk with ⟨fr, hfr, hh⟩
  rw [List.get?_append hg] at hfr
  exact ⟨fr, hfr, hh⟩

/-- `bindVar` at frame `f` leaves every other frame untouched. -/
theorem monoAt_bindVar_self (f : Nat) (st : Store) (s : String) (v : Value) :
    MonoAt f st (bindVar st f s v) := by
  unfold bindVar
  cases hfr : st.get? f with
  | none => exact monoAt_rfl _ _
  | some fr =>
    refine ⟨by simp, fun g hg hgf k hk => ?_⟩
    rcases hk with ⟨frg, hfrg, hh⟩
    rw [List.get?_set_ne _ _ (Ne.symm hgf)] at hfrg
    exact ⟨frg, hfrg, hh⟩

/-- `delete` at frame `f` leaves every other frame untouched. -/
theorem monoAt_delete (f : Nat) (st : Store) (s : String) :
    MonoAt f st (delete st f s).2 := by
  cases hfr : st.get? f with
  | none =>
    simp only [delete, hfr]
    exact monoAt_rfl _ _
  | some fr =>
    cases hpop : dictPop fr.bindings s with
    | none =>
      simp only [delete, hfr, hpop]
      exact monoAt_rfl _ _
    | some p =>
      obtain ⟨v, b⟩ := p
      simp only [delete, hfr, hpop]
      refine ⟨by simp, fun g hg hgf k hk => ?_⟩
      rcases hk with ⟨frg, hfrg, hh⟩
      rw [List.get?_set_ne _ _ (Ne.symm hgf)] at hfrg
      exact ⟨frg, hfrg, hh⟩

/-- Lookup in an updated dict: the written key reads back the new value,
every other key is unaffected. -/
theorem dictGet_dictSet (b : Bindings) (s : String) (v : Value) (k : String) :
    dictGet (dictSet b s v) k = if s = k then some v else dictGet b k := by
  induction b with
  | nil => simp [dictSet, dictGet]
  | cons e rest ih =>
    obtain ⟨k', w⟩ := e
    by_cases hks : k' = s
    · subst hks
      by_cases hk : k' = k
      · subst hk; simp [dictSet, dictGet]
      · simp [dictSet, dictGet, hk]
    · by_cases hk : k' = k
      · subst hk
        have hsk : ¬ s = k' := fun h => hks h.symm
        simp [dictSet, dictGet, hks, hsk, ih]
      · simp [dictSet, dictGet, hks, hk, ih]

/-- A successful `set_exisits` walk never adds a key anywhere: it overwrites
a binding that was already present. -/
theorem monoAll_setExisitsAux (st : Store) (steps i : Nat) (s : String)
    (v : Value) (st' : Store) (h : setExisitsAux st steps i s v = .ok st') :
    MonoAll st st' := by
  induction steps generalizing i with
  | zero => cases h
  | succ steps ih =>
    cases hfr : st.get? i with
    | none => simp only [setExisitsAux, hfr] at h; cases h
    | some fr =>
      simp only [setExisitsAux, hfr] at h
      by_cases hbh : dictHas fr.bindings s
      · rw [if_pos hbh] at h
        injection h with h'
        subst h'
        refine ⟨by simp, fun g hg k hk => ?_⟩
        rcases hk with ⟨frg, hfrg, hh⟩
        by_cases hgi : g = i
        · subst hgi
          obtain ⟨hlen, _⟩ := List.get?_eq_some.mp hfr
          rw [List.get?_set_eq_of_lt _ hlen] at hfrg
          injection hfrg with hfrg'
          subst hfrg'
          refine ⟨fr, hfr, ?_⟩
          simp only [dictHas, dictGet_dictSet] at hh
          by_cases hks : s = k
          · subst hks
            exact hbh
          · rw [if_neg hks] at hh
            exact hh
        · rw [List.get?_set_ne _ _ (Ne.symm hgi)] at hfrg
          exact ⟨frg, hfrg, hh⟩
      · rw [if_neg hbh] at h
        cases hp : fr.parent with
        | none => simp only [hp] at h; cases h
        | some p =>
          simp only [hp] at h
          by_cases hlt : p < i
          · rw [if_pos hlt] at h
            exact ih _ h
          · rw [if_neg hlt] at h; cases h

/-- Parameter binding writes only to the fresh call frame. -/
theorem bindParams_outside (ps : List Ast) (args : List Value) (st : Store)
    (fid : Nat) (st' : Store) (h : bindParams ps args st fid = .ok st') :
    st'.length = st.length ∧ ∀ g, g ≠ fid → st'.get? g = st.get? g := by
  induction ps generalizing args st with
  | nil =>
    simp only [bindParams] at h
    injection h with h'
    subst h'
    exact ⟨rfl, fun _ _ => rfl⟩
  | cons p ps ih =>
    cases args with
    | nil =>
      simp only [bindParams] at h
      injection h with h'
      subst h'
      exact ⟨rfl, fun _ _ => rfl⟩
    | cons a args =>
      cases p with
      | sym s =>
        simp only [bindParams] at h
        obtain ⟨hlen, hout⟩ := ih args (bindVar st fid s a) h
        have hb : (bindVar st fid s a).length = st.length ∧
            ∀ g, g ≠ fid → (bindVar st fid s a).get? g = st.get? g := by
          unfold bindVar
          cases hfr : st.get? fid with
          | none => exact ⟨rfl, fun _ _ => rfl⟩
          | some fr =>
            exact ⟨by simp, fun g hg => List.get?_set_ne _ _ (Ne.symm hg)⟩
        exact ⟨hlen.trans hb.1,
          fun g hg => (hout g hg).trans (hb.2 g hg)⟩
      | num n => simp only [bindParams] at h; cases h
      | node l => simp only [bindParams] at h; cases h

/-- The store after `MonoAt`-style outside-preservation implies `MonoAll`
restricted below the untouched frame. -/
theorem monoAll_of_outside (st st' : Store) (fid : Nat)
    (hlen : st'.length = st.length)
    (hout : ∀ g, g ≠ fid → st'.get? g = st.get? g)
    (hfid : st.length ≤ fid) : MonoAll st st' := by
  refine ⟨Nat.le_of_eq hlen.symm, fun g hg k hk => ?_⟩
  rcases hk with ⟨frg, hfrg, hh⟩
  rw [hout g (by omega)] at hfrg
  exact ⟨frg, hfrg, hh⟩

/-! ## The evaluator invariant and the C5 claim -/

theorem monoAt_application (fuel : Nat) (ts : List Ast) (f : Nat) (st : Store)
    (ihA : ∀ ts f st, MonoAt f st (evalArgs fuel ts f st).2)
    (ihV : ∀ fn args st, MonoAll st (applyVal fuel fn args st).2) :
    MonoAt f st ((match evalArgs fuel ts f st with
      | (.ok vs, st') =>
        (match vs with
         | fn :: args => applyVal fuel fn args st'
         | [] => ((Except.error Err.hostUnmodelled : Except Err Value), st'))
      | (.error e, st') => (.error e, st')).2) := by
  rcases hargs : evalArgs fuel ts f st with ⟨resA, st₁⟩
  have h1 := ihA ts f st
  rw [hargs] at h1
  cases resA with
  | ok vs =>
    cases vs with
    | nil => exact h1
    | cons fn args => exact monoAt_trans_all _ _ _ _ h1 (ihV fn args st₁)
  | error e => exact h1

theorem monoMain (fuel : Nat) :
    (∀ t f st, MonoAt f st (evaluate fuel t f st).2) ∧
    (∀ ts f st, MonoAt f st (evalArgs fuel ts f st).2) ∧
    (∀ ts f st, MonoAt f st (evalAnd fuel ts f st).2) ∧
    (∀ ts f st, MonoAt f st (evalOr fuel ts f st).2) ∧
    (∀ bs baby st, MonoAt baby st (evalLetBinds fuel bs baby st).2) ∧
    (∀ fn args st, MonoAll st (applyVal fuel fn args st).2) ∧
    (∀ p args st, MonoAll st (applyPrim fuel p args st).2) ∧
    (∀ fv l st, MonoAll st (mapGo fuel fv l st).2) ∧
    (∀ fv l st, MonoAll st (filterGo fuel fv l st).2) ∧
    (∀ fv t v st, MonoAll st (reduceGo fuel fv t v st).2) := by
  induction fuel with
  | zero =>
    exact ⟨fun _ _ _ => monoAt_rfl _ _, fun _ _ _ => monoAt_rfl _ _,
      fun _ _ _ => monoAt_rfl _ _, fun _ _ _ => monoAt_rfl _ _,
      fun _ _ _ => monoAt_rfl _ _, fun _ _ _ => monoAll_rfl _,
      fun _ _ _ => monoAll_rfl _, fun _ _ _ => monoAll_rfl _,
      fun _ _ _ => monoAll_rfl _, fun _ _ _ _ => monoAll_rfl _⟩
  | succ fuel ih =>
    obtain ⟨ihEval, ihArgs, ihAnd, ihOr, ihLet, ihApply, ihPrim, ihMap,
      ihFilter, ihReduce⟩ := ih
    refine ⟨?_, ?_, ?_, ?_, ?_, ?_, ?_, ?_, ?_, ?_⟩
    · -- evaluate
      intro t f st
      simp only [evaluate]
      split
      · exact monoAt_rfl _ _
      · exact monoAt_rfl _ _
      · exact monoAt_rfl _ _
      · -- define
        split
        · exact monoAt_rfl _ _
        · exact monoAt_rfl _ _
        · next name expr tail =>
          split
          · -- name is a node: the sugar rewrite
            split
            · exact monoAt_rfl _ _
            · exact ihEval _ _ _
          · -- name is a symbol
            next s =>
            rcases hres : evaluate fuel expr f st with ⟨res, st₁⟩
            have h1 := ihEval expr f st
            rw [hres] at h1
            try rw [hres]
            cases res with
            | ok v => exact monoAt_trans _ _ _ _ h1 (monoAt_bindVar_self _ _ _ _)
            | error e => exact h1
          · -- name is a number
            next n =>
            rcases hres : evaluate fuel expr f st with ⟨res, st₁⟩
            have h1 := ihEval expr f st
            rw [hres] at h1
            try rw [hres]
            cases res with
            | ok v => exact h1
            | error e => exact h1
      · -- lambda
        split
        · exact monoAt_rfl _ _
        · exact monoAt_rfl _ _
      · -- if
        split
        · exact monoAt_rfl _ _
        · next c restIf =>
          rcases hres : evaluate fuel c f st with ⟨res, st₁⟩
          have h1 := ihEval c f st
          rw [hres] at h1
          cases res with
          | ok v =>
            show MonoAt f st
              ((if pyEqTrue v = true then
                  match restIf with
                  | th :: _ => evaluate fuel th f st₁
                  | [] => ((Except.error Err.hostIndex : Except Err Value), st₁)
                else
                  match restIf with
                  | _ :: el :: _ => evaluate fuel el f st₁
                  | _ => ((Except.error Err.hostIndex : Except Err Value), st₁)).2)
            by_cases hb : pyEqTrue v = true
            · rw [if_pos hb]
              cases restIf with
              | nil => exact h1
              | cons th tailIf => exact monoAt_trans _ _ _ _ h1 (ihEval th f st₁)
            · rw [if_neg hb]
              cases restIf with
              | nil => exact h1
              | cons x tailIf =>
                cases tailIf with
                | nil => exact h1
                | cons el tl => exact monoAt_trans _ _ _ _ h1 (ihEval el f st₁)
          | error e => exact h1
      · exact ihAnd _ _ _
      · exact ihOr _ _ _
      · -- del
        split
        · exact monoAt_rfl _ _
        · next n tail =>
          rcases hres : evaluate fuel n f st with ⟨res, st₁⟩
          have h1 := ihEval n f st
          rw [hres] at h1
          try rw [hres]
          cases res with
          | ok v =>
            cases n with
            | sym s => exact monoAt_trans _ _ _ _ h1 (monoAt_delete _ _ _)
            | num m => exact h1
            | node l => exact h1
          | error e => exact h1
      · -- let
        split
        · exact monoAt_of_monoAll _ _ _ (monoAll_append _ _)
        · next bs restLet =>
          split
          · next bsList =>
            rcases hbinds : evalLetBinds fuel bsList st.length
                (st ++ [⟨some f, []⟩]) with ⟨resB, st₁⟩
            have hl1 := ihLet bsList st.length (st ++ [⟨some f, []⟩])
            rw [hbinds] at hl1
            have h01 : MonoAt f st (st ++ [⟨some f, []⟩]) :=
              monoAt_of_monoAll _ _ _ (monoAll_append _ _)
            have hchain : MonoAt f st st₁ :=
              monoAt_trans_hi f st.length st _ st₁ h01 hl1 (Nat.le_refl _)
            try rw [hbinds]
            cases resB with
            | ok u =>
              cases restLet with
              | nil => exact hchain
              | cons body tl =>
                exact monoAt_trans_hi f st.length st st₁ _ hchain
                  (ihEval body st.length st₁) (Nat.le_refl _)
            | error e => exact hchain
          · exact monoAt_of_monoAll _ _ _ (monoAll_append _ _)
          · exact monoAt_of_monoAll _ _ _ (monoAll_append _ _)
      · -- set!
        split
        · exact monoAt_rfl _ _
        · next n restSet =>
          split
          · next s =>
            cases hlk : lookupVar st f s with
            | error e => exact monoAt_rfl _ _
            | ok v0 =>
              show MonoAt f st
                ((match restSet with
                  | [] => ((Except.error Err.hostIndex : Except Err Value), st)
                  | e :: _ =>
                    match evaluate fuel e f st with
                    | (.ok v, st') =>
                      match set_exisits st' f s v with
                      | .ok st'' => (.ok v, st'')
                      | .error er => (.error er, st')
                    | r => r).2)
              cases restSet with
              | nil => exact monoAt_rfl _ _
              | cons e tl =>
                show MonoAt f st
                  ((match evaluate fuel e f st with
                    | (.ok v, st') =>
                      match set_exisits st' f s v with
                      | .ok st'' => ((Except.ok v : Except Err Value), st'')
                      | .error er => (.error er, st')
                    | r => r).2)
                rcases hres : evaluate fuel e f st with ⟨res, st₁⟩
                have h1 := ihEval e f st
                rw [hres] at h1
                cases res with
                | ok v =>
                  show MonoAt f st
                    ((match set_exisits st₁ f s v with
                      | .ok st'' => ((Except.ok v : Except Err Value), st'')
                      | .error er => (.error er, st₁)).2)
                  cases hset : set_exisits st₁ f s v with
                  | ok st₂ =>
                    exact monoAt_trans_all _ _ _ _ h1
                      (monoAll_setExisitsAux st₁ (f + 1) f s v st₂ hset)
                  | error er => exact h1
                | error e2 => exact h1
          · exact monoAt_rfl _ _
          · exact monoAt_rfl _ _
      · -- application
        exact monoAt_application fuel _ f st ihArgs ihApply
    · -- evalArgs
      intro ts f st
      simp only [evalArgs]
      split
      · exact monoAt_rfl _ _
      · next t rest =>
        rcases hres : evaluate fuel t f st with ⟨res, st₁⟩
        have h1 := ihEval t f st
        rw [hres] at h1
        try rw [hres]
        cases res with
        | ok v =>
          show MonoAt f st
            ((match evalArgs fuel rest f st₁ with
              | (.ok vs, st'') => ((Except.ok (v :: vs) : Except Err (List Value)), st'')
              | (.error e, st'') => (.error e, st'')).2)
          rcases hrest : evalArgs fuel rest f st₁ with ⟨resR, st₂⟩
          have h2 := ihArgs rest f st₁
          rw [hrest] at h2
          cases resR with
          | ok vs => exact monoAt_trans _ _ _ _ h1 h2
          | error e => exact monoAt_trans _ _ _ _ h1 h2
        | error e => exact h1
    · -- evalAnd
      intro ts f st
      simp only [evalAnd]
      split
      · exact monoAt_rfl _ _
      · next t rest =>
        rcases hres : evaluate fuel t f st with ⟨res, st₁⟩
        have h1 := ihEval t f st
        rw [hres] at h1
        try rw [hres]
        cases res with
        | ok v =>
          show MonoAt f st
            ((if truthy v = true then evalAnd fuel rest f st₁
              else ((Except.ok (Value.bool false) : Except Err Value), st₁)).2)
          by_cases hb : truthy v = true
          · rw [if_pos hb]
            exact monoAt_trans _ _ _ _ h1 (ihAnd rest f st₁)
          · rw [if_neg hb]
            exact h1
        | error e => exact h1
    · -- evalOr
      intro ts f st
      simp only [evalOr]
      split
      · exact monoAt_rfl _ _
      · next t rest =>
        rcases hres : evaluate fuel t f st with ⟨res, st₁⟩
        have h1 := ihEval t f st
        rw [hres] at h1
        try rw [hres]
        cases res with
        | ok v =>
          show MonoAt f st
            ((if truthy v = true then
                ((Except.ok (Value.bool true) : Except Err Value), st₁)
              else evalOr fuel rest f st₁).2)
          by_cases hb : truthy v = true
          · rw [if_pos hb]
            exact h1
          · rw [if_neg hb]
            exact monoAt_trans _ _ _ _ h1 (ihOr rest f st₁)
        | error e => exact h1
    · -- evalLetBinds
      intro bs baby st
      simp only [evalLetBinds]
      split
      · exact monoAt_rfl _ _
      · next b rest =>
        split
        · next n vExpr tail =>
          rcases hres : evaluate fuel vExpr baby st with ⟨res, st₁⟩
          have h1 := ihEval vExpr baby st
          rw [hres] at h1
          try rw [hres]
          cases res with
          | ok v =>
            cases n with
            | sym s =>
              exact monoAt_trans _ _ _ _
                (monoAt_trans _ _ _ _ h1 (monoAt_bindVar_self _ _ _ _))
                (ihLet rest baby (bindVar st₁ baby s v))
            | num m => exact h1
            | node l => exact h1
          | error e => exact h1
        · exact monoAt_rfl _ _
        · exact monoAt_rfl _ _
        · exact monoAt_rfl _ _
    · -- applyVal
      intro fn args st
      simp only [applyVal]
      split
      · -- closure
        next cf params body =>
        split
        · -- params is a node
          next ps =>
          by_cases hlen : ps.length = args.length
          · rw [if_pos hlen]
            cases hbind : bindParams ps args (st ++ [⟨some cf, []⟩]) st.length with
            | ok st₁ =>
              try rw [hbind]
              obtain ⟨hl, hout⟩ := bindParams_outside _ _ _ _ _ hbind
              have hall : MonoAll st st₁ := by
                refine ⟨by simp at hl ⊢; omega, fun g hg k hk => ?_⟩
                rcases hk with ⟨frg, hfrg, hh⟩
                rw [hout g (by omega)] at hfrg
                rw [List.get?_append hg] at hfrg
                exact ⟨frg, hfrg, hh⟩
              exact monoAll_trans_hi st.length st st₁ _ hall
                (ihEval body st.length st₁) (Nat.le_refl _)
            | error e => exact monoAll_append _ _
          · rw [if_neg hlen]
            exact monoAll_append _ _
        · exact monoAll_append _ _
        · exact monoAll_append _ _
      · exact ihPrim _ _ _
      · exact monoAll_rfl _
      · exact monoAll_rfl _
    · -- applyPrim
      intro p args st
      simp only [applyPrim]
      split
      · exact monoAll_rfl _
      · exact monoAll_rfl _
      · exact monoAll_rfl _
      · exact monoAll_rfl _
      · exact monoAll_rfl _
      · exact monoAll_rfl _
      · exact monoAll_rfl _
      · exact monoAll_rfl _
      · exact monoAll_rfl _
      · exact monoAll_rfl _
      · exact monoAll_rfl _
      · exact monoAll_rfl _
      · exact monoAll_rfl _
      · exact monoAll_rfl _
      · exact monoAll_rfl _
      · exact monoAll_rfl _
      · exact monoAll_rfl _
      · exact monoAll_rfl _
      · exact monoAll_rfl _
      · split
        · exact ihMap _ _ _
        · exact monoAll_rfl _
      · split
        · exact ihFilter _ _ _
        · exact monoAll_rfl _
      · split
        · exact ihReduce _ _ _ _
        · exact monoAll_rfl _
    · -- mapGo
      intro fv l st
      simp only [mapGo]
      split
      · exact monoAll_rfl _
      · next a d =>
        rcases happ : applyVal fuel fv [a] st with ⟨resA, st₁⟩
        have h1 := ihApply fv [a] st
        rw [happ] at h1
        try rw [happ]
        cases resA with
        | ok r =>
          show MonoAll st
            ((match mapGo fuel fv d st₁ with
              | (.ok rest, st'') => ((Except.ok (Value.pair r rest) : Except Err Value), st'')
              | r' => r').2)
          rcases hrec : mapGo fuel fv d st₁ with ⟨resM, st₂⟩
          have h2 := ihMap fv d st₁
          rw [hrec] at h2
          cases resM with
          | ok rest => exact monoAll_trans _ _ _ h1 h2
          | error e => exact monoAll_trans _ _ _ h1 h2
        | error e => exact h1
      · exact monoAll_rfl _
    · -- filterGo
      intro fv l st
      simp only [filterGo]
      split
      · exact monoAll_rfl _
      · next a d =>
        rcases happ : applyVal fuel fv [a] st with ⟨resA, st₁⟩
        have h1 := ihApply fv [a] st
        rw [happ] at h1
        try rw [happ]
        cases resA with
        | ok pv =>
          show MonoAll st
            ((if truthy pv = true then
                match filterGo fuel fv d st₁ with
                | (.ok rest, st'') => ((Except.ok (Value.pair a rest) : Except Err Value), st'')
                | r' => r'
              else filterGo fuel fv d st₁).2)
          have h2 := ihFilter fv d st₁
          by_cases hb : truthy pv = true
          · rw [if_pos hb]
            rcases hrec : filterGo fuel fv d st₁ with ⟨resF, st₂⟩
            rw [hrec] at h2
            cases resF with
            | ok rest => exact monoAll_trans _ _ _ h1 h2
            | error e => exact monoAll_trans _ _ _ h1 h2
          · rw [if_neg hb]
            exact monoAll_trans _ _ _ h1 h2
        | error e => exact h1
      · exact monoAll_rfl _
    · -- reduceGo
      intro fv t v st
      simp only [reduceGo]
      split
      · exact monoAll_rfl _
      · next a d =>
        rcases happ : applyVal fuel fv [v, a] st with ⟨resA, st₁⟩
        have h1 := ihApply fv [v, a] st
        rw [happ] at h1
        try rw [happ]
        cases resA with
        | ok acc => exact monoAll_trans _ _ _ h1 (ihReduce fv d acc st₁)
        | error e => exact h1
      · exact monoAll_rfl _

/-- The AST of `(let ((n1 2) (n2 (* n1 n1))) (+ n1 n2))`: the second binder
expression refers to the first binding. -/
def letExample : Ast :=
  .node [.sym "let",
    .node [.node [.sym "n1", .num (.i 2)],
           .node [.sym "n2", .node [.sym "*", .sym "n1", .sym "n1"]]],
    .node [.sym "+", .sym "n1", .sym "n2"]]

/-- C5: evaluating `(let ((n1 v1) …) body)` appends exactly one new frame —
empty, with the current frame `f` as parent — then evaluates every binder
expression in that same child frame (binding each `ni` there, so later
binder expressions see the earlier bindings, as the concrete example with
`n2`'s expression reading `n1` shows: the result is 6), evaluates the body
in the child frame and returns its result; and the current frame `f` gains
no bindings from any of it. -/
theorem claim_C5_let_one_child_frame (fuel : Nat) (bs : List Ast) (body : Ast)
    (f : Nat) (st : Store) (hf : f < st.length) :
    (evaluate (fuel + 1) (.node [.sym "let", .node bs, body]) f st =
      match evalLetBinds fuel bs st.length (st ++ [⟨some f, []⟩]) with
      | (.ok _, st₁) => evaluate fuel body st.length st₁
      | (.error e, st₁) => (.error e, st₁)) ∧
    ((st ++ [(⟨some f, []⟩ : FrameData)]).get? st.length = some (⟨some f, []⟩ : FrameData)) ∧
    (∀ k, hasKey (evaluate (fuel + 1) (.node [.sym "let", .node bs, body])
        f st).2 f k → hasKey st f k) ∧
    (evaluate 10 letExample 1 initStore).1 = .ok (iv 6) := by
  have heq : evaluate (fuel + 1) (.node [.sym "let", .node bs, body]) f st =
      match evalLetBinds fuel bs st.length (st ++ [⟨some f, []⟩]) with
      | (.ok _, st₁) => evaluate fuel body st.length st₁
      | (.error e, st₁) => (.error e, st₁) := by
    show (match evalLetBinds fuel bs st.length (st ++ [⟨some f, []⟩]) with
      | (.ok _, st₁) =>
        (match [body] with
         | b :: _ => evaluate fuel b st.length st₁
         | [] => ((Except.error Err.hostIndex : Except Err Value), st₁))
      | (.error e, st₁) => ((Except.error e : Except Err Value), st₁)) = _
    rcases evalLetBinds fuel bs st.length (st ++ [⟨some f, []⟩]) with ⟨resB, st₁⟩
    cases resB with
    | ok u => rfl
    | error e => rfl
  refine ⟨heq, List.get?_concat_length _ _, ?_, rfl⟩
  intro k hk
  rw [heq] at hk
  rcases hbinds : evalLetBinds fuel bs st.length (st ++ [⟨some f, []⟩])
    with ⟨resB, st₁⟩
  have hl1 := (monoMain fuel).2.2.2.2.1 bs st.length (st ++ [⟨some f, []⟩])
  rw [hbinds] at hl1
  have happ := monoAll_append st [(⟨some f, []⟩ : FrameData)]
  have hff : f ≠ st.length := by omega
  have hf0 : f < (st ++ [(⟨some f, []⟩ : FrameData)]).length := by simp; omega
  rw [hbinds] at hk
  cases resB with
  | ok u =>
    have hb := (monoMain fuel).1 body st.length st₁
    have hk1 : hasKey st₁ f k := by
      refine hb.2 f ?_ hff k hk
      have := hl1.1
      simp at this ⊢
      omega
    exact happ.2 f hf k (hl1.2 f hf0 hff k hk1)
  | error e =>
    exact happ.2 f hf k (hl1.2 f hf0 hff k hk)

/-- C5 witness: the `let` equation and key preservation at the concrete
example, plus its evaluation to 6. -/
theorem claim_C5_let_witness :
    (evaluate 10 letExample 1 initStore =
      match evalLetBinds 9
          [.node [.sym "n1", .num (.i 2)],
           .node [.sym "n2", .node [.sym "*", .sym "n1", .sym "n1"]]]
          initStore.length (initStore ++ [⟨some 1, []⟩]) with
      | (.ok _, st₁) =>
        evaluate 9 (.node [.sym "+", .sym "n1", .sym "n2"])
          initStore.length st₁
      | (.error e, st₁) => (.error e, st₁)) ∧
    (evaluate 10 letExample 1 initStore).1 = .ok (iv 6) := by
  have h := claim_C5_let_one_child_frame 9
    [.node [.sym "n1", .num (.i 2)],
     .node [.sym "n2", .node [.sym "*", .sym "n1", .sym "n1"]]]
    (.node [.sym "+", .sym "n1", .sym "n2"]) 1 initStore (by decide)
  exact ⟨h.1, h.2.2.2⟩


/-! ## C6: `parse` succeeds exactly on single well-formed expressions -/

/-- The token sequences forming a (possibly empty) run of complete
expressions: the grammar the parser's subexpression loop consumes. -/
inductive SeqTok : List String → Prop where
  | nil : SeqTok []
  | atom (t : String) (us : List String) :
      t ≠ "(" → t ≠ ")" → SeqTok us → SeqTok (t :: us)
  | comp (ts us : List String) :
      SeqTok ts → SeqTok us → SeqTok ("(" :: ts ++ [")"] ++ us)

/-- The token sequences forming exactly one complete expression: a single
atom, or a parenthesised run of expressions. -/
def ExprTok (ts : List String) : Prop :=
  (∃ t, ts = [t] ∧ t ≠ "(" ∧ t ≠ ")") ∨
  (∃ inner, SeqTok inner ∧ ts = "(" :: inner ++ [")"])

/-- One expression followed by a run of expressions is a run. -/
theorem seqTok_cons (ts us : List String) (hts : ExprTok ts)
    (hus : SeqTok us) : SeqTok (ts ++ us) := by
  rcases hts with ⟨t, rfl, h1, h2⟩ | ⟨inner, hseq, rfl⟩
  · exact SeqTok.atom t us h1 h2 hus
  · have := SeqTok.comp inner us hseq hus
    simpa using this

/-- A single expression's token list is never empty. -/
theorem exprTok_ne_nil (ts : List String) (h : ExprTok ts) : ts ≠ [] := by
  rcases h with ⟨t, rfl, _, _⟩ | ⟨inner, _, rfl⟩ <;> simp

/-- Classification of the parser on nonempty inputs with sufficient fuel:
`parse_expression` either consumes a nonempty well-formed expression prefix
and succeeds, or raises the syntax error — never a host error and never
fuel exhaustion; `parseSubexpr` likewise consumes a run of expressions up
to a closing parenthesis or raises the syntax error. -/
theorem parse_classify (fuel : Nat) :
    (∀ rem, rem ≠ [] → 2 * rem.length < fuel →
      (∃ ts a rem', rem = ts ++ rem' ∧ ts ≠ [] ∧ ExprTok ts ∧
        parse_expression fuel rem = .ok (a, rem')) ∨
      parse_expression fuel rem = .error .schemeSyntax) ∧
    (∀ rem acc, 2 * rem.length + 1 < fuel →
      (∃ ts a rem', rem = ts ++ ")" :: rem' ∧ SeqTok ts ∧
        parseSubexpr fuel rem acc = .ok (a, rem')) ∨
      parseSubexpr fuel rem acc = .error .schemeSyntax) := by
  induction fuel with
  | zero =>
    constructor
    · intro rem hne hb
      omega
    · intro rem acc hb
      omega
  | succ fuel ih =>
    obtain ⟨ihE, ihS⟩ := ih
    constructor
    · intro rem hne hb
      cases rem with
      | nil => exact absurd rfl hne
      | cons t rest =>
        by_cases ht : t = ")"
        · right
          subst ht
          simp [parse_expression]
        · by_cases hp : t = "("
          · subst hp
            have hb' : 2 * rest.length + 1 < fuel := by
              simp only [List.length_cons] at hb
              omega
            rcases ihS rest [] hb' with ⟨ts, a, rem', hdec, hseq, hok⟩ | herr
            · left
              refine ⟨"(" :: ts ++ [")"], a, rem', ?_, by simp, ?_, ?_⟩
              · rw [hdec]
                simp
              · exact Or.inr ⟨ts, hseq, rfl⟩
              · simp only [parse_expression, if_true, if_false]
                exact hok
            · right
              simp only [parse_expression, if_true, if_false]
              exact herr
          · left
            refine ⟨[t], number_or_symbol t, rest, rfl, by simp,
              Or.inl ⟨t, rfl, hp, ht⟩, ?_⟩
            simp only [parse_expression]
            rw [if_neg ht, if_neg hp]
    · intro rem acc hb
      cases rem with
      | nil =>
        right
        rfl
      | cons t rest =>
        by_cases ht : t = ")"
        · left
          subst ht
          refine ⟨[], .node acc.reverse, rest, by simp, SeqTok.nil, ?_⟩
          simp [parseSubexpr]
        · cases rest with
          | nil =>
            right
            simp only [parseSubexpr]
            rw [if_neg ht]
          | cons r rest' =>
            have hbE : 2 * (t :: r :: rest').length < fuel := by
              simp only [List.length_cons] at hb ⊢
              omega
            rcases ihE (t :: r :: rest') (by simp) hbE with
              ⟨ts₁, a₁, rem₁, hdec₁, hne₁, hexpr₁, hok₁⟩ | herr₁
            · have hlen₁ : rem₁.length < (t :: r :: rest').length := by
                rw [hdec₁]
                cases ts₁ with
                | nil => exact absurd rfl hne₁
                | cons x xs => simp; omega
              have hbS : 2 * rem₁.length + 1 < fuel := by
                simp only [List.length_cons] at hbE hlen₁
                omega
              rcases ihS rem₁ (a₁ :: acc) hbS with
                ⟨ts₂, a₂, rem₂, hdec₂, hseq₂, hok₂⟩ | herr₂
              · left
                refine ⟨ts₁ ++ ts₂, a₂, rem₂, ?_, seqTok_cons _ _ hexpr₁ hseq₂, ?_⟩
                · rw [hdec₁, hdec₂]
                  simp
                · simp only [parseSubexpr]
                  rw [if_neg ht]
                  rw [hok₁]
                  exact hok₂
              · right
                simp only [parseSubexpr]
                rw [if_neg ht]
                rw [hok₁]
                exact herr₂
            · right
              simp only [parseSubexpr]
              rw [if_neg ht]
              rw [herr₁]

/-- Completeness of the subexpression loop: a well-formed run followed by
its closing parenthesis parses, leaving exactly the remaining tokens. -/
theorem parseSubexpr_complete (ts : List String) (h : SeqTok ts) :
    ∀ rest acc fuel, 2 * ts.length + 1 ≤ fuel →
    ∃ a, parseSubexpr fuel (ts ++ ")" :: rest) acc = .ok (a, rest) := by
  induction h with
  | nil =>
    intro rest acc fuel hf
    match fuel, hf with
    | fuel + 1, _ =>
      exact ⟨.node acc.reverse, by simp [parseSubexpr]⟩
  | atom t us h1 h2 hseq ih =>
    intro rest acc fuel hf
    cases fuel with
    | zero => simp only [List.length_cons] at hf; omega
    | succ f1 =>
      cases f1 with
      | zero => simp only [List.length_cons] at hf; omega
      | succ n =>
        have hn : 2 * us.length + 1 ≤ n + 1 := by
          simp only [List.length_cons] at hf; omega
        obtain ⟨a₂, hrec⟩ := ih rest (number_or_symbol t :: acc) (n + 1) hn
        refine ⟨a₂, ?_⟩
        have hexp : parse_expression (n + 1) (t :: (us ++ ")" :: rest)) =
            .ok (number_or_symbol t, us ++ ")" :: rest) := by
          simp only [parse_expression]
          rw [if_neg h2, if_neg h1]
        show parseSubexpr (n + 2) (t :: (us ++ ")" :: rest)) acc = _
        cases us with
        | nil =>
          simp only [List.nil_append] at hexp hrec ⊢
          simp only [parseSubexpr]
          rw [if_neg h2]
          rw [hexp]
          exact hrec
        | cons u us' =>
          simp only [parseSubexpr]
          rw [if_neg h2]
          rw [hexp]
          exact hrec
  | comp ts us hts hus ihts ihus =>
    intro rest acc fuel hf
    cases fuel with
    | zero => simp only [List.length_append, List.length_cons] at hf; omega
    | succ f1 =>
      cases f1 with
      | zero => simp only [List.length_append, List.length_cons] at hf; omega
      | succ n =>
        have hnts : 2 * ts.length + 1 ≤ n := by
          simp only [List.length_append, List.length_cons] at hf; omega
        have hnus : 2 * us.length + 1 ≤ n + 1 := by
          simp only [List.length_append, List.length_cons] at hf; omega
        obtain ⟨a₁, hinner⟩ := ihts (us ++ ")" :: rest) [] n hnts
        obtain ⟨a₂, houter⟩ := ihus rest (a₁ :: acc) (n + 1) hnus
        refine ⟨a₂, ?_⟩
        have harr : (("(" :: ts ++ [")"] ++ us) ++ ")" :: rest) =
            "(" :: (ts ++ ")" :: (us ++ ")" :: rest)) := by simp
        rw [harr]
        have hexp : parse_expression (n + 1)
            ("(" :: (ts ++ ")" :: (us ++ ")" :: rest))) =
            .ok (a₁, us ++ ")" :: rest) := by
          simp only [parse_expression, if_true, if_false]
          exact hinner
        cases hts' : ts ++ ")" :: (us ++ ")" :: rest) with
        | nil => exact absurd hts' (by cases ts <;> simp)
        | cons w ws =>
          cases ws with
          | nil =>
            exfalso
            cases ts with
            | nil => simp at hts'
            | cons x xs =>
              simp only [List.cons_append, List.cons.injEq] at hts'
              rcases hts' with ⟨_, h2'⟩
              cases xs <;> simp at h2'
          | cons w2 ws2 =>
            rw [hts'] at hexp
            show parseSubexpr (n + 2) ("(" :: w :: w2 :: ws2) acc = _
            simp only [parseSubexpr]
            rw [if_neg (show ¬("(" = ")") by decide)]
            rw [hexp]
            exact houter

/-- Completeness of `parse_expression`: a single well-formed expression
followed by anything parses, leaving exactly the rest. -/
theorem parse_expression_complete (ts : List String) (h : ExprTok ts) :
    ∀ rest fuel, 2 * ts.length ≤ fuel →
    ∃ a, parse_expression fuel (ts ++ rest) = .ok (a, rest) := by
  rcases h with ⟨t, rfl, h1, h2⟩ | ⟨inner, hseq, rfl⟩
  · intro rest fuel hf
    match fuel, hf with
    | n + 1, _ =>
      refine ⟨number_or_symbol t, ?_⟩
      show parse_expression (n + 1) (t :: rest) = _
      simp only [parse_expression]
      rw [if_neg h2, if_neg h1]
  · intro rest fuel hf
    cases fuel with
    | zero => simp only [List.length_append, List.length_cons] at hf; omega
    | succ n =>
      have hn : 2 * inner.length + 1 ≤ n := by
        simp only [List.length_append, List.length_cons] at hf; omega
      obtain ⟨a, hin⟩ := parseSubexpr_complete inner hseq rest [] n hn
      refine ⟨a, ?_⟩
      have harr : (("(" :: inner ++ [")"]) ++ rest) =
          "(" :: (inner ++ ")" :: rest) := by simp
      rw [harr]
      simp only [parse_expression, if_true, if_false]
      exact hin

/-- C6: `parse` succeeds — consuming every token, the leftover-token check
being part of `parse` itself — exactly on the well-formed token sequences
(one complete expression), and raises `SchemeSyntaxError` exactly on the
nonempty malformed ones (a `)` where an expression is expected, a `(`
whose `)` is missing when the tokens run out, or leftover tokens after the
first expression); the empty sequence, which none of those cases covers,
instead escapes as the host IndexError of `tokens[0]`. -/
theorem claim_C6_parse_exactly_wellformed (ts : List String) :
    (ExprTok ts → ∃ a, parse ts = .ok a) ∧
    (∀ a, parse ts = .ok a → ExprTok ts) ∧
    (parse ts = .error .schemeSyntax ↔ (ts ≠ [] ∧ ¬ ExprTok ts)) ∧
    parse ([] : List String) = .error .hostIndex := by
  have hcomplete : ExprTok ts → ∃ a, parse ts = .ok a := by
    intro h
    obtain ⟨a, hok⟩ := parse_expression_complete ts h [] (2 * ts.length + 3)
      (by omega)
    rw [List.append_nil] at hok
    exact ⟨a, by simp [parse, hok]⟩
  have hsound : ∀ a, parse ts = .ok a → ExprTok ts := by
    intro a hok
    cases hts : ts with
    | nil =>
      subst hts
      simp [parse, parse_expression] at hok
    | cons t rest =>
      subst hts
      rcases (parse_classify (2 * (t :: rest).length + 3)).1 (t :: rest)
          (by simp) (by omega) with
        ⟨ts₁, a₁, rem₁, hdec, hne, hexpr, hpe⟩ | herr
      · rw [parse, hpe] at hok
        cases rem₁ with
        | nil =>
          rw [List.append_nil] at hdec
          rw [hdec]
          exact hexpr
        | cons x xs => cases hok
      · rw [parse, herr] at hok
        cases hok
  refine ⟨hcomplete, hsound, ?_, rfl⟩
  constructor
  · intro herr
    constructor
    · intro hnil
      subst hnil
      simp [parse, parse_expression] at herr
    · intro hexpr
      obtain ⟨a, hok⟩ := hcomplete hexpr
      rw [hok] at herr
      cases herr
  · rintro ⟨hne, hnexpr⟩
    rcases (parse_classify (2 * ts.length + 3)).1 ts hne (by omega) with
      ⟨ts₁, a₁, rem₁, hdec, hne₁, hexpr₁, hpe⟩ | herr
    · cases rem₁ with
      | nil =>
        rw [List.append_nil] at hdec
        exact absurd (hdec ▸ hexpr₁) hnexpr
      | cons x xs =>
        rw [parse, hpe]
    · rw [parse, herr]

/-- C6 witness: the well-formed `["(", "x", ")"]` parses (the grammar
hypothesis discharged by explicit constructors), and concrete malformed
inputs of each kind raise the syntax error via the iff. -/
theorem claim_C6_parse_witness :
    (∃ a, parse ["(", "x", ")"] = .ok a) ∧
    parse [")", "x"] = .error .schemeSyntax ∧
    parse ["(", "x"] = .error .schemeSyntax ∧
    parse ["x", "y"] = .error .schemeSyntax := by
  refine ⟨?_, ?_, ?_, ?_⟩
  · exact (claim_C6_parse_exactly_wellformed ["(", "x", ")"]).1
      (Or.inr ⟨["x"], SeqTok.atom "x" [] (by decide) (by decide) SeqTok.nil, rfl⟩)
  · rfl
  · rfl
  · rfl

end Lab
